import Mathlib

/-!
# Verification of the course-selection check pipeline

Shallow embedding of the core logic of the `CreditCheck_forStudent`
dashboard (`src/deshboard/src/App.tsx`, plus the earlier UI variant in
`src/unnamed/part_000`): text normalization, subject-group
canonicalization (`canonGroup`), the Roman-numeral hierarchy parser
(`parseHierLevel`), course-name normalization (`normCourseName`), the
prerequisite-table loader (`PREREQS`), the per-student validators, and
the per-student aggregation/export (`exportAll`).

Modelling conventions:
* JavaScript strings are modelled as `List Char`; `null`-able strings as
  `Option (List Char)`.
* JavaScript numbers that carry credits are modelled as exact rationals
  (`ℚ`); student identifiers (grade / class / number) are modelled as
  naturals, following the data model (spec §3: "optional small
  integers"), under which the string key `g-c-n` used by the source is
  in bijection with the triple and the numeric sort comparator recovers
  its components.
* `String.prototype.normalize('NFKC')` is modelled by `nfkc`, the NFKC
  mapping restricted to the character repertoire the program manipulates
  (Roman-numeral characters, full-width punctuation and digits, the
  half-width middle dot, compatibility spaces, the Hangul letter araea);
  it is the identity on all other characters.  All characters appearing
  in the program's own tables are covered.
* `Map` is modelled as an insertion-ordered association list with
  update-in-place semantics (`mapSet` / `upsert`), `Set` as an
  insertion-ordered duplicate-free list, matching JS iteration order.
-/

namespace CreditCheck

/-- JS whitespace class (the `\s` class / `String.prototype.trim`):
space, tab, LF, VT, FF, CR, NBSP, ogham space mark, the U+2000–U+200A
spaces, LS, PS, NNBSP, MMSP, ideographic space, BOM. -/
def isWs (c : Char) : Bool :=
  c = ' ' || c = '\t' || c = '\n' || c = '\r' ||
  c.toNat = 11 || c.toNat = 12 || c.toNat = 0xA0 || c.toNat = 0x1680 ||
  (0x2000 ≤ c.toNat && c.toNat ≤ 0x200A) || c.toNat = 0x2028 || c.toNat = 0x2029 ||
  c.toNat = 0x202F || c.toNat = 0x205F || c.toNat = 0x3000 || c.toNat = 0xFEFF

/-- JS line terminators, which `.` in a regular expression does not match. -/
def isLineTerm (c : Char) : Bool :=
  c = '\n' || c = '\r' || c.toNat = 0x2028 || c.toNat = 0x2029

/-- `String.prototype.trim`: drop leading and trailing whitespace. -/
def trim (l : List Char) : List Char :=
  ((l.dropWhile isWs).reverse.dropWhile isWs).reverse

/-- NFKC compatibility mappings for the character repertoire handled by
the program: Roman numeral characters Ⅰ–Ⅹ (U+2160–U+2169) decompose to
ASCII letters, full-width solidus / parentheses / digits to their ASCII
forms, the half-width katakana middle dot to U+30FB, NBSP and the
ideographic space to the plain space, and the Hangul compatibility
letter araea U+318D to the conjoining jamo U+119E. -/
def nfkcTable : List (Char × List Char) :=
  [ ('Ⅰ', ['I']), ('Ⅱ', ['I','I']), ('Ⅲ', ['I','I','I']), ('Ⅳ', ['I','V']),
    ('Ⅴ', ['V']), ('Ⅵ', ['V','I']), ('Ⅶ', ['V','I','I']), ('Ⅷ', ['V','I','I','I']),
    ('Ⅸ', ['I','X']), ('Ⅹ', ['X']),
    ('／', ['/']), ('･', ['・']), ('（', ['(']), ('）', [')']),
    (' ', [' ']), ('　', [' ']), ('ㆍ', ['ᆞ']),
    ('０', ['0']), ('１', ['1']), ('２', ['2']), ('３', ['3']), ('４', ['4']),
    ('５', ['5']), ('６', ['6']), ('７', ['7']), ('８', ['8']), ('９', ['9']) ]

/-- One character under the modelled NFKC mapping. -/
def nfkcChar (c : Char) : List Char :=
  match nfkcTable.find? (fun p => p.1 = c) with
  | some p => p.2
  | none => [c]

/-- `String.prototype.normalize('NFKC')` over the modelled repertoire. -/
def nfkc (l : List Char) : List Char := l.flatMap nfkcChar

/-- The middle-dot characters unified by `canonGroup`
(regex class `[·⋅•∙・ㆍ]`). -/
def dotChars : List Char := ['·', '⋅', '•', '∙', '・', 'ㆍ']

/-- `replace(/[·⋅•∙・ㆍ]/g, '・')`, one character. -/
def dotChar (c : Char) : Char := if dotChars.contains c then '・' else c

/-- `replace(/／/g, '/')`, one character. -/
def slashChar (c : Char) : Char := if c = '／' then '/' else c

/-- Scanner for the global replace `/\s*SEP\s*/g → SEP`.  A global
regex replace is a single left-to-right scan; the state records whether
the scan sits directly behind an occurrence of `sep` with only
whitespace seen since (`afterSep`, whose whitespace is deleted by the
trailing `\s*` of the match), and `buf` holds a pending whitespace run
that is deleted when the next non-whitespace character turns out to be
`sep` (eaten by the leading `\s*`) and flushed otherwise. -/
def swaM (sep : Char) (afterSep : Bool) (buf : List Char) : List Char → List Char
  | [] => buf
  | c :: rest =>
    if c = sep then sep :: swaM sep true [] rest
    else if isWs c then
      if afterSep then swaM sep true [] rest
      else swaM sep false (buf ++ [c]) rest
    else buf ++ c :: swaM sep false [] rest

/-- `replace(/\s*SEP\s*/g, SEP)`: remove every whitespace run adjacent
to an occurrence of `sep`. -/
def stripWsAround (sep : Char) (l : List Char) : List Char := swaM sep false [] l

/-- Scanner for the global replace
`/\(([^)]*)\)/g → "(" + inner-without-whitespace + ")"`.  Outside a
group (`none`) characters pass through and `(` opens a candidate group;
inside a candidate group (`some buf`) characters accumulate until the
first `)` closes the group (its interior whitespace is then dropped) or
the input ends with the group unclosed (then, as for the regex, the
candidate match fails and the scanned text is emitted verbatim). -/
def spM : Option (List Char) → List Char → List Char
  | none, [] => []
  | some buf, [] => '(' :: buf
  | none, c :: rest => if c = '(' then spM (some []) rest else c :: spM none rest
  | some buf, c :: rest =>
    if c = ')' then '(' :: buf.filter (fun x => !isWs x) ++ ')' :: spM none rest
    else spM (some (buf ++ [c])) rest

/-- `replace(/\(([^)]*)\)/g, (_m, inner) => "(" + inner-without-ws + ")")`:
for every parenthesized span, remove the whitespace inside it.  As in
the regex, a `(` with no later `)` matches nothing. -/
def stripParens (l : List Char) : List Char := spM none l

/-- `replace(/\s+/g, '')`: drop every whitespace character (used only to
build the comparison form inside `canonGroup`). -/
def removeAllWs (l : List Char) : List Char := l.filter (fun c => !isWs c)

/-- The symbol/width normalization chain applied inside `canonGroup`
(App.tsx lines 41–51): NFKC, unify middle dots, unify the full-width
slash, strip whitespace around the separator and the slash, strip
whitespace inside parentheses. -/
def normalizeChain (s : List Char) : List Char :=
  stripParens (stripWsAround '/' (stripWsAround '・'
    (((nfkc s).map dotChar).map slashChar)))

/-- The merged elective-category label. -/
def mergedTarget : List Char := "기술・가정/제2외국어/한문/교양".toList

/-- Alias set of the `canonGroup` in `src/deshboard/src/App.tsx`
(lines 56–64). -/
def aliasesApp : List (List Char) :=
  [ mergedTarget, "교양".toList, "제2외국어".toList, "제2외국어/한문".toList,
    "한문".toList, "기술・가정".toList, "기술・가정/정보".toList ]

/-- Alias set of the `canonGroup` in `src/unnamed/part_000`
(lines 55–62); it lacks the `제2외국어/한문` alias. -/
def aliasesEarly : List (List Char) :=
  [ mergedTarget, "교양".toList, "제2외국어".toList,
    "한문".toList, "기술・가정".toList, "기술・가정/정보".toList ]

/-- `canonGroup`, parameterized by the alias list (the two source
variants differ only there). -/
def canonGroupWith (aliases : List (List Char)) (raw : Option (List Char)) :
    List Char :=
  match raw with
  | none => "기타".toList
  | some r =>
    let s := trim r
    if s = [] then "기타".toList
    else
      let normalized := normalizeChain s
      let cmp := removeAllWs normalized
      if aliases.contains cmp then mergedTarget else normalized

/-- `canonGroup` of `src/deshboard/src/App.tsx` (lines 36–68). -/
def canonGroup : Option (List Char) → List Char := canonGroupWith aliasesApp

/-- `canonGroup` of `src/unnamed/part_000` (lines 35–66). -/
def canonGroupEarly : Option (List Char) → List Char := canonGroupWith aliasesEarly

/-- The string transformation inside `normCourseName`: trim, NFKC,
remove whitespace inside parentheses (App.tsx lines 97–103). -/
def normNC (s : List Char) : List Char := stripParens (nfkc (trim s))

/-- `normCourseName` (App.tsx lines 97–103): `null` and the empty string
(both falsy) map to `null`; otherwise the trim/NFKC/parenthesis
whitespace normalization is applied. -/
def normCourseName : Option (List Char) → Option (List Char)
  | none => none
  | some s => if s = [] then none else some (normNC s)

/-- The single Unicode Roman-numeral characters of the regex class
`[ⅠⅡⅢⅣⅤⅥⅦⅧⅨⅩ]` in `parseHierLevel`. -/
def uniRoman : List Char := ['Ⅰ','Ⅱ','Ⅲ','Ⅳ','Ⅴ','Ⅵ','Ⅶ','Ⅷ','Ⅸ','Ⅹ']

/-- The ASCII alternatives of `parseHierLevel`, in source order:
`(?:VIII|VII|VI|IV|IX|III|II|I|X)`.  Note the source list has no lone
`V`. -/
def asciiRoman : List (List Char) :=
  [ "VIII".toList, "VII".toList, "VI".toList, "IV".toList, "IX".toList,
    "III".toList, "II".toList, "I".toList, "X".toList ]

/-- The numeral-to-level table of `parseHierLevel` (App.tsx lines
82–87): ASCII strings I…X and Unicode characters Ⅰ…Ⅹ. -/
def romanMap : List (List Char × Nat) :=
  [ ("I".toList, 1), ("II".toList, 2), ("III".toList, 3), ("IV".toList, 4),
    ("V".toList, 5), ("VI".toList, 6), ("VII".toList, 7), ("VIII".toList, 8),
    ("IX".toList, 9), ("X".toList, 10),
    (['Ⅰ'], 1), (['Ⅱ'], 2), (['Ⅲ'], 3), (['Ⅳ'], 4), (['Ⅴ'], 5),
    (['Ⅵ'], 6), (['Ⅶ'], 7), (['Ⅷ'], 8), (['Ⅸ'], 9), (['Ⅹ'], 10) ]

/-- Whether a suffix of the subject string can be consumed by
`s*(?:UNI|ASCII)$` of the `parseHierLevel` regex.  The `\s` written
inside the template literal is the literal character `s` (JavaScript
cooks `\s` to `s`), so the separator part matches a run of lowercase
`s` characters, after which exactly one alternation token must close
the string.  No token starts with `s`, so the run is forced to be the
full leading `s`-run of the suffix. -/
def tailMatch (rest : List Char) : Bool :=
  let t := rest.dropWhile (· = 's')
  (match t with | [c] => uniRoman.contains c | _ => false) || asciiRoman.contains t

/-- Lazy-group semantics of `^(.*?)s*(?:UNI|ASCII)$`: the shortest
prefix (which `.` forbids from containing a line terminator) whose
complement is consumed by the rest of the pattern. -/
def findSplit (s : List Char) : Option Nat :=
  (List.range (s.length + 1)).find?
    (fun i => (s.take i).all (fun c => !isLineTerm c) && tailMatch (s.drop i))

/-- Lookup in the numeral table (`map[key]`); the levels are all
nonzero, so JS `!level` is exactly a failed lookup. -/
def lookupRoman (t : List Char) : Option Nat :=
  (romanMap.find? (fun p => p.1 = t)).map (·.2)

/-- `parseHierLevel` (App.tsx lines 71–94): trim and NFKC-normalize,
match the anchored regex, look the matched tail up in the numeral
table, and trim the prefix into the base; empty base or failed lookup
give `null` (modelled `none`). -/
def parseHierLevel : Option (List Char) → Option (List Char × Nat)
  | none => none
  | some n =>
    if n = [] then none
    else
      let s := nfkc (trim n)
      match findSplit s with
      | none => none
      | some i =>
        let tl := trim (s.drop i)
        match lookupRoman tl with
        | none => none
        | some lvl =>
          let base := trim (s.take i)
          if base = [] then none else some (base, lvl)

/-- `isKoreanHistory` (App.tsx lines 106–110): exact match of the
trimmed, NFKC-normalized name against the three variants. -/
def isKoreanHistory : Option (List Char) → Bool
  | none => false
  | some s =>
    if s = [] then false
    else
      let t := nfkc (trim s)
      t = "한국사".toList || t = "한국사1".toList || t = "한국사2".toList

/-! ## Rows, per-student aggregation and export (`exportAll`) -/

/-- One course-taking record (`Row` of `src/unnamed/part_001`).  Field
names follow the source columns 학년 / 반 / 번호 / 이름 / 과목학년 /
과목학기 / 교과 / 과목명 / 학점. -/
structure Row where
  grade : Option Nat
  classNum : Option Nat
  stuNum : Option Nat
  stuName : Option (List Char)
  subjGrade : Option Nat
  subjTerm : Option Nat
  group : Option (List Char)
  subjName : Option (List Char)
  credit : Option ℚ
deriving DecidableEq

/-- The student key `grade-class-number`. -/
abbrev StuKey := Nat × Nat × Nat

/-- A row's student key; `none` when any component is missing (such
rows are skipped by every per-student grouping in the source). -/
def keyOf (r : Row) : Option StuKey :=
  match r.grade, r.classNum, r.stuNum with
  | some g, some c, some n => some (g, c, n)
  | _, _, _ => none

/-- The per-row record built inside `exportAll` (App.tsx lines
362–368): canonical group, course name defaulted to the empty string,
credit defaulted to 0. -/
structure Item where
  group : List Char
  subjName : List Char
  credit : ℚ
  subjGrade : Option Nat
  subjTerm : Option Nat
deriving DecidableEq

/-- `list = s.list.map(...)` of `exportAll`. -/
def toItem (r : Row) : Item :=
  { group := canonGroup r.group
    subjName := r.subjName.getD []
    credit := r.credit.getD 0
    subjGrade := r.subjGrade
    subjTerm := r.subjTerm }

/-- The fixed foundation subject groups (`new Set(['국어','수학','영어'])`). -/
def foundationGroups : List (List Char) := ["국어".toList, "수학".toList, "영어".toList]

/-- `list.reduce((sum,r)=> sum + (r.학점||0), 0)`. -/
def totalOf (items : List Item) : ℚ :=
  items.foldl (fun s it => s + it.credit) 0

/-- `list.reduce((sum,r)=> sum + (foundation.has(r.교과) ? r.학점 : 0), 0)`. -/
def baseOnlyOf (items : List Item) : ℚ :=
  items.foldl
    (fun s it => s + (if foundationGroups.contains it.group then it.credit else 0)) 0

/-- `list.reduce((sum,r)=> sum + (isKoreanHistory(r.과목명) ? r.학점 : 0), 0)`. -/
def khOnlyOf (items : List Item) : ℚ :=
  items.foldl
    (fun s it => s + (if isKoreanHistory (some it.subjName) then it.credit else 0)) 0

/-- `Math.round`: round half toward positive infinity. -/
def jsRound (q : ℚ) : ℤ := ⌊q + 1/2⌋

/-- `total>0 ? Math.round(((baseOnly+khOnly)/total)*1000)/10 : 0`
(App.tsx line 374). -/
def pctOf (items : List Item) : ℚ :=
  if 0 < totalOf items then
    (jsRound ((baseOnlyOf items + khOnlyOf items) / totalOf items * 1000) : ℚ) / 10
  else 0

/-- JS `Map.set` on an insertion-ordered association list: update in
place when the key is present, append otherwise. -/
def upsert (m : List (StuKey × List Row)) (k : StuKey) (r : Row) :
    List (StuKey × List Row) :=
  if m.any (fun p => p.1 = k) then
    m.map (fun p => if p.1 = k then (p.1, p.2 ++ [r]) else p)
  else m ++ [(k, [r])]

/-- One loop iteration of the `byStu` grouping. -/
def byStuStep (m : List (StuKey × List Row)) (r : Row) : List (StuKey × List Row) :=
  match keyOf r with
  | none => m
  | some k => upsert m k r

/-- The `byStu` map of `exportAll` (App.tsx lines 307–314): group the
complete-keyed rows per student key, preserving first-seen key order
and per-bucket row order. -/
def byStu (rows : List Row) : List (StuKey × List Row) :=
  rows.foldl byStuStep []

/-- The sort order of `exportAll`'s key comparator
`(ag-bg) || (ac-bc) || (an-bn)`: lexicographic on (grade, class,
number). -/
def keyLe (a b : StuKey) : Prop :=
  a.1 < b.1 ∨ (a.1 = b.1 ∧ (a.2.1 < b.2.1 ∨ (a.2.1 = b.2.1 ∧ a.2.2 ≤ b.2.2)))

/-- Strict version of `keyLe`. -/
def keyLt (a b : StuKey) : Prop :=
  a.1 < b.1 ∨ (a.1 = b.1 ∧ (a.2.1 < b.2.1 ∨ (a.2.1 = b.2.1 ∧ a.2.2 < b.2.2)))

instance : DecidableRel keyLe := fun a b => by unfold keyLe; exact inferInstance

instance : DecidableRel keyLt := fun a b => by unfold keyLt; exact inferInstance

instance : IsTotal StuKey keyLe :=
  ⟨by intro a b; unfold keyLe; omega⟩

instance : IsTrans StuKey keyLe :=
  ⟨by intro a b c; unfold keyLe; omega⟩

/-- `Array.from(byStu.keys()).sort(comparator)`: the bucket keys are
pairwise distinct, so the stable JS sort produces the unique `keyLe`-
sorted arrangement, modelled by insertion sort. -/
def sortedKeys (rows : List Row) : List StuKey :=
  List.insertionSort keyLe ((byStu rows).map (·.1))

/-- The levels attained per base (`byBase` of `buildChecks`, App.tsx
lines 324–331): insertion-ordered map from base to the insertion-
ordered set of levels. -/
def addLevel (m : List (List Char × List Nat)) (b : List Char) (lvl : Nat) :
    List (List Char × List Nat) :=
  if m.any (fun p => p.1 = b) then
    m.map (fun p =>
      if p.1 = b then (p.1, if p.2.contains lvl then p.2 else p.2 ++ [lvl]) else p)
  else m ++ [(b, [lvl])]

/-- One loop iteration of the per-base grouping. -/
def byBaseStep (m : List (List Char × List Nat)) (it : Item) :
    List (List Char × List Nat) :=
  match parseHierLevel (some it.subjName) with
  | none => m
  | some (b, lvl) => addLevel m b lvl

/-- Fold the parseable courses of a student list into the per-base
level sets. -/
def byBase (items : List Item) : List (List Char × List Nat) :=
  items.foldl byBaseStep []

/-- `const max = Math.max(...levels); for (let i=1;i<max;i++) ...`:
the levels in `[1, max-1]` absent from the attained set. -/
def missingOf (levels : List Nat) : List Nat :=
  let mx := levels.foldl Nat.max 0
  (List.range' 1 (mx - 1)).filter (fun i => !levels.contains i)

/-- The Roman-hierarchy findings (`seqParts` of `buildChecks`, App.tsx
lines 332–339 / the `seq` block at 499–517): one `(base, missing)`
finding per base whose missing list is nonempty. -/
def seqFindings (items : List Item) : List (List Char × List Nat) :=
  (byBase items).filterMap (fun p =>
    let miss := missingOf p.2
    if miss = [] then none else some (p.1, miss))

/-- One loop iteration of the `have` set construction. -/
def haveStep (s : List (List Char)) (it : Item) : List (List Char) :=
  match normCourseName (some it.subjName) with
  | none => s
  | some nm => if s.contains nm then s else s ++ [nm]

/-- The set of the student's normalized course names (`have` of
`buildChecks`, App.tsx lines 341–342), insertion-ordered. -/
def haveSet (items : List Item) : List (List Char) :=
  items.foldl haveStep []

/-- The explicit-prerequisite findings (`explicitParts` of
`buildChecks`, App.tsx lines 343–348): for each table entry whose
course the student holds, the required names the student lacks. -/
def explicitFindings (table : List (List Char × List (List Char)))
    (items : List Item) : List (List Char × List (List Char)) :=
  table.filterMap (fun p =>
    if (haveSet items).contains p.1 then
      let miss := p.2.filter (fun r => !(haveSet items).contains r)
      if miss = [] then none else some (p.1, miss)
    else none)

/-! ## The prerequisite table loader (`PREREQS`, App.tsx lines 113–122)

The raw JSON collaborator is an arbitrary list of key/requirement-list
pairs; the loader normalizes keys and values with `normCourseName`,
drops entries with an empty normalized key, and writes into a `Map`
(last write wins). -/

/-- `const nk = normCourseName(k); if (!nk) continue`: JS falsiness
covers both `null` and the empty string. -/
def normKeyOpt (k : List Char) : Option (List Char) :=
  match normCourseName (some k) with
  | none => none
  | some nk => if nk = [] then none else some nk

/-- `arr.map(normCourseName).filter(Boolean)`. -/
def normVals (arr : List (List Char)) : List (List Char) :=
  arr.filterMap (fun v =>
    match normCourseName (some v) with
    | none => none
    | some nv => if nv = [] then none else some nv)

/-- `Map.set` for the prerequisite table. -/
def mapSet (m : List (List Char × List (List Char))) (k : List Char)
    (v : List (List Char)) : List (List Char × List (List Char)) :=
  if m.any (fun p => p.1 = k) then
    m.map (fun p => if p.1 = k then (p.1, v) else p)
  else m ++ [(k, v)]

/-- One loop iteration of the `PREREQS` loader. -/
def loadStep (m : List (List Char × List (List Char)))
    (e : List Char × List (List Char)) : List (List Char × List (List Char)) :=
  match normKeyOpt e.1 with
  | none => m
  | some nk => mapSet m nk (normVals e.2)

/-- The `PREREQS` loader as a function of the raw reference data. -/
def loadPrereqs (entries : List (List Char × List (List Char))) :
    List (List Char × List (List Char)) :=
  entries.foldl loadStep []

/-- `Map.get`: value of the first (unique) entry with the given key. -/
def assocFind (m : List (List Char × List (List Char))) (k : List Char) :
    Option (List (List Char)) :=
  (m.find? (fun p => p.1 = k)).map (·.2)

/-- Specification-side description of last-write-wins loading: the
normalized requirement list of the textually last raw entry whose
normalized key is `k`. -/
def lastWins (entries : List (List Char × List (List Char))) (k : List Char) :
    Option (List (List Char)) :=
  entries.reverse.findSome? (fun e =>
    match normKeyOpt e.1 with
    | none => none
    | some nk => if nk = k then some (normVals e.2) else none)

/-- One exported student record (the claims-relevant columns of the
`exportAll` row, App.tsx lines 360–384). -/
structure Rec where
  key : StuKey
  total : ℚ
  baseOnly : ℚ
  khOnly : ℚ
  pct : ℚ
  flagged : Bool

/-- The row bucket of one student key. -/
def bucketOf (rows : List Row) (k : StuKey) : List Row :=
  (((byStu rows).find? (fun p => p.1 = k)).map (·.2)).getD []

/-- The exported record of one student (sums, ratio, threshold flag
`if (pct > 50) checkParts.push('기초교과 비율 초과')`). -/
def recOf (rows : List Row) (k : StuKey) : Rec :=
  let items := (bucketOf rows k).map toItem
  { key := k
    total := totalOf items
    baseOnly := baseOnlyOf items
    khOnly := khOnlyOf items
    pct := pctOf items
    flagged := decide (50 < pctOf items) }

/-- The exported record list: one record per student key, in sorted
key order (App.tsx lines 356–385). -/
def exportRecords (rows : List Row) : List Rec :=
  (sortedKeys rows).map (recOf rows)

/-- Spec-side rounding: a percentage rounded to one decimal place. -/
def round1dp (x : ℚ) : ℚ := (jsRound (x * 10) : ℚ) / 10

/-! ## Specification-side descriptions used to state the claims -/

/-- The attained-level list of one base, read directly off the course
list: the levels of the courses whose parsed base is `base`. -/
def levelsSem (items : List Item) (base : List Char) : List Nat :=
  items.filterMap (fun it =>
    match parseHierLevel (some it.subjName) with
    | some (b, n) => if b = base then some n else none
    | none => none)

/-- The student attains level `n` for `base`. -/
def attains (items : List Item) (base : List Char) (n : Nat) : Bool :=
  items.any (fun it => parseHierLevel (some it.subjName) = some (base, n))

/-- The level set stored for a base by the `byBase` fold. -/
def lookupLv (m : List (List Char × List Nat)) (b : List Char) : List Nat :=
  (((m.find? (fun p => p.1 = b)).map (·.2))).getD []

/-! ## Invariants used by the idempotence development -/

/-- `WsDel l l'`: `l'` is obtained from `l` by deleting some whitespace
characters.  Every stage of the normalization chain past the character
maps only deletes whitespace, which is what makes the earlier stages'
invariants survive the later stages. -/
inductive WsDel : List Char → List Char → Prop
  | nil : WsDel [] []
  | keep (c : Char) {l l' : List Char} : WsDel l l' → WsDel (c :: l) (c :: l')
  | del (c : Char) {l l' : List Char} : isWs c → WsDel l l' → WsDel (c :: l) l'

/-- No whitespace character is adjacent to an occurrence of `sep`;
exactly the strings on which `stripWsAround sep` is the identity. -/
def SepOk (sep : Char) (l : List Char) : Prop :=
  List.Chain' (fun a b => ¬(a = sep ∧ isWs b) ∧ ¬(isWs a ∧ b = sep)) l

/-- The first and last characters (when any) are not whitespace;
exactly the strings on which `trim` is the identity. -/
def NoEndWs (l : List Char) : Prop :=
  (∀ c, l.head? = some c → isWs c = false) ∧
  (∀ c, l.getLast? = some c → isWs c = false)

/-- A character stable under all three character-level maps of the
normalization chain. -/
def CharFix (e : Char) : Prop :=
  nfkcChar e = [e] ∧ dotChar e = e ∧ slashChar e = e

/-! ## Concrete data used by the individual claims -/

/-- A student-list item carrying only a course name (the other fields
do not influence the hierarchy/prerequisite checks). -/
def mkItem (subj : String) : Item := ⟨[], subj.toList, 0, none, none⟩

/-- A complete-keyed row. -/
def mkRow (g c n : Nat) (grp subj : String) (cr : ℚ) : Row :=
  ⟨some g, some c, some n, none, none, none, some grp.toList, some subj.toList, some cr⟩

/-- Student with attained levels {1,3} for base 화학. -/
def itemsChem13 : List Item := [mkItem "화학Ⅰ", mkItem "화학Ⅲ"]

/-- Student with attained levels {1,2,3} for base 화학. -/
def itemsChem123 : List Item := [mkItem "화학Ⅰ", mkItem "화학Ⅱ", mkItem "화학Ⅲ"]

/-- Student with the single attained level {2} for base 화학. -/
def itemsChem2 : List Item := [mkItem "화학Ⅱ"]

/-- The example prerequisite reference `{"미적분": ["수학Ⅰ","수학Ⅱ"]}`. -/
def calcEntries : List (List Char × List (List Char)) :=
  [("미적분".toList, ["수학Ⅰ".toList, "수학Ⅱ".toList])]

/-- A student holding only 미적분 and 수학Ⅰ. -/
def itemsCalc : List Item := [mkItem "미적분", mkItem "수학Ⅰ"]

/-- One student: foundation credits 51 of 100. -/
def rows51 : List Row :=
  [mkRow 1 1 1 "국어" "문학" 51, mkRow 1 1 1 "미술" "미술" 49]

/-- One student: foundation credits 50 of 100. -/
def rows50 : List Row :=
  [mkRow 1 1 1 "국어" "문학" 50, mkRow 1 1 1 "미술" "미술" 50]

/-- One student whose single row is a Korean-history course filed under
the foundation group 수학. -/
def rowsDouble : List Row := [mkRow 1 1 1 "수학" "한국사" 4]

/-- Unordered input rows for four distinct students. -/
def rowsUnsorted : List Row :=
  [ mkRow 2 1 1 "국어" "문학" 1, mkRow 1 2 1 "국어" "문학" 1,
    mkRow 1 1 5 "국어" "문학" 1, mkRow 1 1 2 "국어" "문학" 1,
    mkRow 1 1 5 "수학" "수학Ⅰ" 1 ]

/-- Loader test data: a blank key (dropped), a key that normalizes to
the same string as a later key (overwritten), values that normalize. -/
def loaderEntries : List (List Char × List (List Char)) :=
  [ (" 미적분 ".toList, ["수학Ⅰ".toList]),
    ("  ".toList, ["x".toList]),
    ("미적분".toList, ["수학Ⅱ".toList, "".toList]) ]

/-! ## Basic list helpers -/

theorem head_dropWhile_false {p : Char → Bool} {l : List Char} {c : Char}
    (h : (l.dropWhile p).head? = some c) : p c = false := by
  induction l with
  | nil => simp at h
  | cons a t ih =>
    rw [List.dropWhile_cons] at h
    split at h
    · exact ih h
    · simp_all

theorem takeWhile_append_all {p : Char → Bool} {a : List Char} (b : List Char)
    (h : ∀ x ∈ a, p x = true) : (a ++ b).takeWhile p = a ++ b.takeWhile p := by
  induction a with
  | nil => simp
  | cons x t ih =>
    simp only [List.cons_append, List.takeWhile_cons, h x (by simp)]
    rw [ih (fun y hy => h y (by simp [hy]))]
    simp

theorem dropWhile_append_all {p : Char → Bool} {a : List Char} (b : List Char)
    (h : ∀ x ∈ a, p x = true) : (a ++ b).dropWhile p = b.dropWhile p := by
  induction a with
  | nil => simp
  | cons x t ih =>
    simp only [List.cons_append, List.dropWhile_cons, h x (by simp)]
    exact ih (fun y hy => h y (by simp [hy]))

theorem splitAtRparen {l : List Char} (h : ')' ∈ l) :
    l = l.takeWhile (· ≠ ')') ++ ')' :: (l.dropWhile (· ≠ ')')).tail := by
  have hne : l.dropWhile (· ≠ ')') ≠ [] := by
    intro hnil
    rw [List.dropWhile_eq_nil_iff] at hnil
    simpa using hnil ')' h
  obtain ⟨d, t, hd⟩ := List.exists_cons_of_ne_nil hne
  have : d = ')' := by
    have := head_dropWhile_false (l := l) (p := (fun c => decide (c ≠ ')')))
      (c := d) (by rw [hd]; rfl)
    simpa using this
  subst this
  conv_lhs => rw [← List.takeWhile_append_dropWhile (p := (fun c => decide (c ≠ ')'))) (l := l)]
  rw [hd]
  rfl

/-! ## Whitespace-deletion relation -/

theorem WsDel.rfl : ∀ (l : List Char), WsDel l l
  | [] => WsDel.nil
  | c :: t => WsDel.keep c (WsDel.rfl t)

theorem WsDel.append {a a' b b' : List Char}
    (h1 : WsDel a a') (h2 : WsDel b b') : WsDel (a ++ b) (a' ++ b') := by
  induction h1 with
  | nil => exact h2
  | keep c _ ih => exact WsDel.keep c ih
  | del c hws _ ih => exact WsDel.del c hws ih

theorem WsDel.filterWs : ∀ (l : List Char), WsDel l (l.filter (fun c => !isWs c))
  | [] => WsDel.nil
  | c :: t => by
    rw [List.filter_cons]
    by_cases hw : isWs c
    · simpa [hw] using WsDel.del c hw (WsDel.filterWs t)
    · simpa [hw] using WsDel.keep c (WsDel.filterWs t)

theorem WsDel.allWs : ∀ {l : List Char}, (∀ c ∈ l, isWs c = true) → WsDel l []
  | [], _ => WsDel.nil
  | c :: t, h =>
    WsDel.del c (h c (by simp)) (WsDel.allWs (fun d hd => h d (by simp [hd])))

theorem WsDel.mem {l l' : List Char} (h : WsDel l l') : ∀ c ∈ l', c ∈ l := by
  induction h with
  | nil => simp
  | keep c _ ih =>
    intro d hd
    rcases List.mem_cons.1 hd with h' | h'
    · simp [h']
    · exact List.mem_cons_of_mem _ (ih d h')
  | del c _ _ ih => exact fun d hd => List.mem_cons_of_mem _ (ih d hd)

/-! ## Character-level facts about the modelled NFKC map -/

theorem nfkcChar_default {c : Char} (h : nfkcTable.find? (fun p => p.1 = c) = none) :
    nfkcChar c = [c] := by
  unfold nfkcChar
  rw [h]

theorem nfkcChar_cases (c : Char) :
    nfkcChar c = [c] ∨ ∃ p ∈ nfkcTable, p.1 = c ∧ nfkcChar c = p.2 := by
  unfold nfkcChar
  cases hf : nfkcTable.find? (fun p => p.1 = c) with
  | none => exact Or.inl rfl
  | some p =>
    refine Or.inr ⟨p, List.mem_of_find?_eq_some hf, ?_, rfl⟩
    have := List.find?_some hf
    simpa using this

theorem nfkcTable_image_fix :
    ∀ p ∈ nfkcTable, ∀ d ∈ p.2, nfkcChar d = [d] := by decide

theorem nfkc_fixed_of_mem {c d : Char} (h : d ∈ nfkcChar c) : nfkcChar d = [d] := by
  rcases nfkcChar_cases c with hc | ⟨p, hp, _, hc⟩
  · rw [hc] at h
    rcases List.mem_singleton.1 h with rfl
    exact hc
  · rw [hc] at h
    exact nfkcTable_image_fix p hp d h

theorem dotChar_idem (d : Char) : dotChar (dotChar d) = dotChar d := by
  unfold dotChar
  split
  · decide
  · rfl

theorem nfkcChar_dotChar {d : Char} (h : nfkcChar d = [d]) :
    nfkcChar (dotChar d) = [dotChar d] := by
  unfold dotChar
  split
  · decide
  · exact h

theorem charFix_slashChar {d : Char} (h1 : nfkcChar d = [d]) (h2 : dotChar d = d) :
    CharFix (slashChar d) := by
  unfold slashChar
  split
  · exact ⟨by decide, by decide, by decide⟩
  · refine ⟨h1, h2, ?_⟩
    unfold slashChar
    split
    · simp_all
    · rfl

theorem charFix_of_mem_mapped {l : List Char} {e : Char}
    (he : e ∈ ((nfkc l).map dotChar).map slashChar) : CharFix e := by
  rcases List.mem_map.1 he with ⟨x, hx, rfl⟩
  rcases List.mem_map.1 hx with ⟨d, hd, rfl⟩
  rcases List.mem_flatMap.1 hd with ⟨c, _, hdc⟩
  exact charFix_slashChar (nfkcChar_dotChar (nfkc_fixed_of_mem hdc)) (dotChar_idem d)

/-- A list of fixed characters is a fixed point of `nfkc`. -/
theorem nfkc_fixed_list {l : List Char} (h : ∀ c ∈ l, nfkcChar c = [c]) :
    nfkc l = l := by
  induction l with
  | nil => rfl
  | cons c t ih =>
    show nfkcChar c ++ nfkc t = c :: t
    rw [h c (by simp), ih (fun d hd => h d (by simp [hd]))]
    rfl

/-- A list of fixed characters is a fixed point of a character map. -/
theorem map_fixed_list {f : Char → Char} {l : List Char} (h : ∀ c ∈ l, f c = c) :
    l.map f = l := by
  induction l with
  | nil => rfl
  | cons c t ih =>
    simp only [List.map_cons, h c (by simp), ih (fun d hd => h d (by simp [hd]))]

/-! ## Facts about `stripWsAround` -/

theorem sepR_ws_ws {sep a b : Char} (hsep : isWs sep = false)
    (hwa : isWs a = true) (hwb : isWs b = true) :
    ¬(a = sep ∧ isWs b) ∧ ¬(isWs a ∧ b = sep) := by
  constructor
  · rintro ⟨rfl, -⟩
    rw [hsep] at hwa
    exact Bool.noConfusion hwa
  · rintro ⟨-, rfl⟩
    rw [hsep] at hwb
    exact Bool.noConfusion hwb

theorem sepR_right {sep a b : Char} (h1 : b ≠ sep) (h2 : isWs b = false) :
    ¬(a = sep ∧ isWs b) ∧ ¬(isWs a ∧ b = sep) := by
  constructor
  · rintro ⟨-, hb⟩
    rw [h2] at hb
    exact Bool.noConfusion hb
  · rintro ⟨-, hb⟩
    exact h1 hb

theorem sepR_left {sep a b : Char} (h1 : a ≠ sep) (h2 : isWs a = false) :
    ¬(a = sep ∧ isWs b) ∧ ¬(isWs a ∧ b = sep) := by
  constructor
  · rintro ⟨ha, -⟩
    exact h1 ha
  · rintro ⟨ha, -⟩
    rw [h2] at ha
    exact Bool.noConfusion ha

theorem sepR_sep {sep b : Char} (hsep : isWs sep = false) (hb : isWs b = false) :
    ¬(sep = sep ∧ isWs b) ∧ ¬(isWs sep ∧ b = sep) := by
  constructor
  · rintro ⟨-, h⟩
    rw [hb] at h
    exact Bool.noConfusion h
  · rintro ⟨h, -⟩
    rw [hsep] at h
    exact Bool.noConfusion h

theorem sepOk_allWs {sep : Char} (hsep : isWs sep = false) {l : List Char}
    (h : ∀ x ∈ l, isWs x = true) : SepOk sep l :=
  List.Pairwise.chain'
    (List.pairwise_of_forall_mem_list
      (fun a ha b hb => sepR_ws_ws hsep (h a ha) (h b hb)))

theorem swaM_wsDel (sep : Char) :
    ∀ (l buf : List Char) (b : Bool), (∀ x ∈ buf, isWs x = true) →
      WsDel (buf ++ l) (swaM sep b buf l) := by
  intro l
  induction l with
  | nil =>
    intro buf b _
    simpa using WsDel.rfl buf
  | cons c rest ih =>
    intro buf b hbuf
    rw [swaM]
    by_cases hcs : c = sep
    · subst hcs
      rw [if_pos rfl]
      have h2 : WsDel (c :: rest) (c :: swaM c true [] rest) :=
        WsDel.keep c (by simpa using ih [] true (by simp))
      simpa using WsDel.append (WsDel.allWs hbuf) h2
    · rw [if_neg hcs]
      by_cases hws : isWs c
      · rw [if_pos hws]
        cases b with
        | true =>
          have h2 : WsDel (c :: rest) (swaM sep true [] rest) :=
            WsDel.del c hws (by simpa using ih [] true (by simp))
          simpa using WsDel.append (WsDel.allWs hbuf) h2
        | false =>
          have := ih (buf ++ [c]) false (by
            intro x hx
            rcases List.mem_append.1 hx with h | h
            · exact hbuf x h
            · rcases List.mem_singleton.1 h with rfl
              exact hws)
          simpa [List.append_assoc] using this
      · rw [if_neg hws]
        exact WsDel.append (WsDel.rfl buf) (WsDel.keep c (ih [] false (by simp)))

theorem stripWsAround_wsDel (sep : Char) (l : List Char) :
    WsDel l (stripWsAround sep l) := by
  simpa using swaM_wsDel sep l [] false (by simp)

theorem swaM_head_true {sep : Char} (hsep : isWs sep = false) :
    ∀ (l : List Char) {h : Char}, (swaM sep true [] l).head? = some h →
      isWs h = false := by
  intro l
  induction l with
  | nil => intro h hh; simp [swaM] at hh
  | cons c rest ih =>
    intro h hh
    rw [swaM] at hh
    by_cases hcs : c = sep
    · rw [if_pos hcs] at hh
      simp only [List.head?_cons] at hh
      rcases Option.some.inj hh with rfl
      exact hsep
    · rw [if_neg hcs] at hh
      by_cases hws : isWs c
      · rw [if_pos hws, if_pos rfl] at hh
        exact ih hh
      · rw [if_neg hws] at hh
        simp only [List.nil_append, List.head?_cons] at hh
        rcases Option.some.inj hh with rfl
        exact (Bool.eq_false_iff.2 hws)

theorem swaM_sepOk {sep : Char} (hsep : isWs sep = false) :
    ∀ (l buf : List Char) (b : Bool), (∀ x ∈ buf, isWs x = true) →
      SepOk sep (swaM sep b buf l) := by
  intro l
  induction l with
  | nil =>
    intro buf b hbuf
    rw [swaM]
    exact sepOk_allWs hsep hbuf
  | cons c rest ih =>
    intro buf b hbuf
    rw [swaM]
    by_cases hcs : c = sep
    · subst hcs
      rw [if_pos rfl]
      unfold SepOk
      rw [List.chain'_cons']
      refine ⟨?_, ih [] true (by simp)⟩
      intro y hy
      exact sepR_sep hsep (swaM_head_true hsep rest (Option.mem_def.1 hy))
    · rw [if_neg hcs]
      by_cases hws : isWs c
      · rw [if_pos hws]
        cases b with
        | true => exact ih [] true (by simp)
        | false =>
          refine ih (buf ++ [c]) false ?_
          intro x hx
          rcases List.mem_append.1 hx with h | h
          · exact hbuf x h
          · rcases List.mem_singleton.1 h with rfl
            exact hws
      · rw [if_neg hws]
        have hwsf : isWs c = false := Bool.eq_false_iff.2 hws
        unfold SepOk
        rw [List.chain'_append]
        refine ⟨sepOk_allWs hsep hbuf, ?_, ?_⟩
        · rw [List.chain'_cons']
          exact ⟨fun y _ => sepR_left hcs hwsf, ih [] false (by simp)⟩
        · intro x hx y hy
          simp only [List.head?_cons, Option.mem_def, Option.some.injEq] at hy
          subst hy
          exact sepR_right hcs hwsf

theorem stripWsAround_sepOk {sep : Char} (hsep : isWs sep = false) (l : List Char) :
    SepOk sep (stripWsAround sep l) :=
  swaM_sepOk hsep l [] false (by simp)

theorem swaM_eq_self {sep : Char} (hsep : isWs sep = false) :
    ∀ (l buf : List Char) (b : Bool), (∀ x ∈ buf, isWs x = true) →
      SepOk sep (buf ++ l) →
      (b = true → ∀ h, l.head? = some h → isWs h = false) →
      swaM sep b buf l = buf ++ l := by
  intro l
  induction l with
  | nil =>
    intro buf b _ _ _
    rw [swaM]
    simp
  | cons c rest ih =>
    intro buf b hbuf hok hb
    rw [swaM]
    by_cases hcs : c = sep
    · subst hcs
      rw [if_pos rfl]
      have hbufnil : buf = [] := by
        rcases List.eq_nil_or_concat buf with rfl | ⟨bs, x, hbx⟩
        · rfl
        · exfalso
          rw [List.concat_eq_append] at hbx
          subst hbx
          unfold SepOk at hok
          have hbound := (List.chain'_append.1 hok).2.2
          have hwx : isWs x = true := hbuf x (by simp)
          refine (hbound x ?_ c (by simp)).2 ⟨hwx, rfl⟩
          rw [List.getLast?_append]
          simp
      subst hbufnil
      simp only [List.nil_append] at hok ⊢
      unfold SepOk at hok
      have hcons := List.chain'_cons'.1 hok
      have htail := hcons.2
      have hhead : ∀ h, rest.head? = some h → isWs h = false := by
        intro h hh
        by_contra hcon
        exact (hcons.1 h (Option.mem_def.2 hh)).1
          ⟨rfl, Bool.of_not_eq_false hcon⟩
      rw [ih [] true (by simp) (by exact htail) (fun _ => hhead)]
      rfl
    · rw [if_neg hcs]
      by_cases hws : isWs c
      · rw [if_pos hws]
        cases b with
        | true =>
          exfalso
          have habs := hb rfl c rfl
          rw [hws] at habs
          exact Bool.noConfusion habs
        | false =>
          rw [if_neg Bool.false_ne_true]
          have hstep := ih (buf ++ [c]) false
            (by
              intro x hx
              rcases List.mem_append.1 hx with h | h
              · exact hbuf x h
              · rcases List.mem_singleton.1 h with rfl
                exact hws)
            (by rw [List.append_assoc]; simpa using hok)
            (by simp)
          rw [hstep, List.append_assoc]
          rfl
      · rw [if_neg hws]
        have htail : SepOk sep rest := by
          unfold SepOk at hok
          have h1 := (List.chain'_append.1 hok).2.1
          exact (List.chain'_cons'.1 h1).2
        rw [ih [] false (by simp) (by simpa using htail) (by simp)]
        rfl

theorem stripWsAround_eq_self {sep : Char} (hsep : isWs sep = false)
    {l : List Char} (h : SepOk sep l) : stripWsAround sep l = l := by
  simpa using swaM_eq_self hsep l [] false (by simp) (by simpa using h) (by simp)

/-! ## Whitespace deletion preserves the separator invariant -/

theorem wsDel_sepOk {sep : Char} :
    ∀ {l l' : List Char}, WsDel l l' → SepOk sep l →
      SepOk sep l' ∧ (l'.head? = l.head? ∨
        ∃ d, l.head? = some d ∧ isWs d = true ∧
          ∀ h', l'.head? = some h' → h' ≠ sep) := by
  intro l l' hdel
  induction hdel with
  | nil => exact fun _ => ⟨List.chain'_nil, Or.inl rfl⟩
  | keep c hwd ih =>
    intro hok
    unfold SepOk at hok
    have hcons := List.chain'_cons'.1 hok
    obtain ⟨hC, halt⟩ := ih hcons.2
    refine ⟨?_, Or.inl rfl⟩
    unfold SepOk
    rw [List.chain'_cons']
    refine ⟨?_, hC⟩
    intro y hy
    rcases halt with heq | ⟨d, hld, hdws, hne⟩
    · exact hcons.1 y (by rw [heq] at hy; exact hy)
    · have hcd := hcons.1 d (by rw [hld]; rfl)
      have hcnotsep : c ≠ sep := fun hcs => hcd.1 ⟨hcs, hdws⟩
      constructor
      · rintro ⟨hcs, -⟩
        exact hcnotsep hcs
      · rintro ⟨-, hys⟩
        exact hne y (Option.mem_def.1 hy) hys
  | del c hws hwd ih =>
    intro hok
    unfold SepOk at hok
    have hcons := List.chain'_cons'.1 hok
    obtain ⟨hC, halt⟩ := ih hcons.2
    refine ⟨hC, Or.inr ⟨c, rfl, hws, ?_⟩⟩
    intro h' hh' hs
    rcases halt with heq | ⟨d, hld, hdws, hne⟩
    · have := hcons.1 h' (by rw [heq] at hh'; exact Option.mem_def.2 hh')
      exact this.2 ⟨hws, hs⟩
    · exact hne h' hh' hs

theorem WsDel.sepOk {sep : Char} {l l' : List Char} (hdel : WsDel l l')
    (h : SepOk sep l) : SepOk sep l' := (wsDel_sepOk hdel h).1

/-! ## Facts about `stripParens` -/

theorem spM_closed :
    ∀ (l buf : List Char), ')' ∈ l →
      spM (some buf) l =
        '(' :: (buf ++ l.takeWhile (· ≠ ')')).filter (fun x => !isWs x)
          ++ ')' :: spM none ((l.dropWhile (· ≠ ')')).tail) := by
  intro l
  induction l with
  | nil => intro buf h; simp at h
  | cons c rest ih =>
    intro buf h
    by_cases hc : c = ')'
    · subst hc
      rw [spM, if_pos rfl]
      simp [List.takeWhile_cons, List.dropWhile_cons]
    · have hmem : ')' ∈ rest := by
        rcases List.mem_cons.1 h with h' | h'
        · exact absurd h'.symm hc
        · exact h'
      rw [spM, if_neg hc, ih (buf ++ [c]) hmem]
      have ht : (c :: rest).takeWhile (· ≠ ')') = c :: rest.takeWhile (· ≠ ')') := by
        rw [List.takeWhile_cons, if_pos (by simpa using hc)]
      have hd : (c :: rest).dropWhile (· ≠ ')') = rest.dropWhile (· ≠ ')') := by
        rw [List.dropWhile_cons, if_pos (by simpa using hc)]
      rw [ht, hd, List.append_assoc]
      rfl

theorem spM_open :
    ∀ (l buf : List Char), ')' ∉ l → spM (some buf) l = '(' :: buf ++ l := by
  intro l
  induction l with
  | nil => intro buf _; simp [spM]
  | cons c rest ih =>
    intro buf h
    have hc : ¬c = ')' := fun hcc => h (by simp [hcc])
    rw [spM, if_neg hc, ih (buf ++ [c]) (fun hm => h (by simp [hm]))]
    simp

theorem stripParens_nil : stripParens [] = [] := rfl

theorem stripParens_match {rest : List Char} (h : ')' ∈ rest) :
    stripParens ('(' :: rest) =
      '(' :: (rest.takeWhile (· ≠ ')')).filter (fun x => !isWs x)
        ++ ')' :: stripParens ((rest.dropWhile (· ≠ ')')).tail) := by
  show spM (some []) rest = _
  rw [spM_closed rest [] h]
  rfl

theorem stripParens_id_of_no_rparen : ∀ {l : List Char}, ')' ∉ l → stripParens l = l := by
  intro l
  induction l with
  | nil => intro _; rfl
  | cons c rest ih =>
    intro h
    by_cases hc : c = '('
    · subst hc
      show spM (some []) rest = _
      rw [spM_open rest [] (fun hm => h (by simp [hm]))]
      rfl
    · show (if c = '(' then spM (some []) rest else c :: spM none rest) = c :: rest
      rw [if_neg hc]
      rw [show spM none rest = stripParens rest from rfl,
        ih (fun hm => h (by simp [hm]))]

theorem stripParens_other {c : Char} {rest : List Char}
    (h : ¬(c = '(' ∧ ')' ∈ rest)) : stripParens (c :: rest) = c :: stripParens rest := by
  by_cases hc : c = '('
  · subst hc
    have hnr : ')' ∉ rest := fun hm => h ⟨rfl, hm⟩
    show spM (some []) rest = _
    rw [spM_open rest [] hnr, stripParens_id_of_no_rparen hnr]
    rfl
  · show (if c = '(' then spM (some []) rest else c :: spM none rest) = _
    rw [if_neg hc]
    rfl

theorem spM_wsDel :
    ∀ l : List Char, WsDel l (spM none l) ∧
      ∀ buf : List Char, WsDel ('(' :: buf ++ l) (spM (some buf) l) := by
  intro l
  induction l with
  | nil =>
    refine ⟨WsDel.nil, fun buf => ?_⟩
    rw [spM]
    simpa using WsDel.rfl ('(' :: buf)
  | cons c rest ih =>
    constructor
    · rw [spM]
      by_cases hc : c = '('
      · rw [if_pos hc]
        subst hc
        simpa using ih.2 []
      · rw [if_neg hc]
        exact WsDel.keep c ih.1
    · intro buf
      rw [spM]
      by_cases hc : c = ')'
      · rw [if_pos hc]
        subst hc
        exact WsDel.keep '('
          (WsDel.append (WsDel.filterWs buf) (WsDel.keep ')' ih.1))
      · rw [if_neg hc]
        have := ih.2 (buf ++ [c])
        simpa [List.append_assoc] using this

theorem stripParens_wsDel (l : List Char) : WsDel l (stripParens l) := (spM_wsDel l).1

theorem stripParens_mem {l : List Char} {c : Char} (h : c ∈ stripParens l) : c ∈ l :=
  WsDel.mem (stripParens_wsDel l) c h

theorem spM_ends :
    ∀ l : List Char,
      ((spM none l).head? = l.head? ∧ (spM none l).getLast? = l.getLast?) ∧
      ∀ buf : List Char, (spM (some buf) l).head? = some '(' ∧
        (spM (some buf) l).getLast? = ('(' :: buf ++ l).getLast? := by
  intro l
  induction l with
  | nil =>
    refine ⟨⟨rfl, rfl⟩, fun buf => ⟨?_, ?_⟩⟩
    · rw [spM]
      rfl
    · rw [spM]
      simp
  | cons c rest ih =>
    constructor
    · constructor
      · rw [spM]
        by_cases hc : c = '('
        · rw [if_pos hc, (ih.2 []).1, hc]
          rfl
        · rw [if_neg hc]
          rfl
      · rw [spM]
        by_cases hc : c = '('
        · rw [if_pos hc, (ih.2 []).2, hc]
          rfl
        · rw [if_neg hc, List.getLast?_cons, List.getLast?_cons, ih.1.2]
    · intro buf
      rw [spM]
      by_cases hc : c = ')'
      · rw [if_pos hc]
        subst hc
        refine ⟨rfl, ?_⟩
        rw [List.getLast?_append, List.getLast?_append]
        simp only [List.getLast?_cons, ih.1.2]
        rfl
      · rw [if_neg hc]
        refine ⟨(ih.2 (buf ++ [c])).1, ?_⟩
        rw [(ih.2 (buf ++ [c])).2]
        simp [List.append_assoc]

theorem stripParens_head (l : List Char) : (stripParens l).head? = l.head? :=
  (spM_ends l).1.1

theorem stripParens_getLast (l : List Char) : (stripParens l).getLast? = l.getLast? :=
  (spM_ends l).1.2

theorem stripParens_idem_aux :
    ∀ (n : Nat) (l : List Char), l.length ≤ n →
      stripParens (stripParens l) = stripParens l := by
  intro n
  induction n with
  | zero =>
    intro l hl
    have : l = [] := List.eq_nil_of_length_eq_zero (Nat.le_zero.1 hl)
    subst this
    rfl
  | succ n ih =>
    intro l hl
    match l with
    | [] => rfl
    | c :: rest =>
      by_cases hc : c = '(' ∧ ')' ∈ rest
      · obtain ⟨rfl, hr⟩ := hc
        rw [stripParens_match hr]
        set F := (rest.takeWhile (· ≠ ')')).filter (fun x => !isWs x) with hF
        set A := (rest.dropWhile (· ≠ ')')).tail with hA
        have hFne : ∀ x ∈ F, (x ≠ ')') := by
          intro x hx
          have := List.mem_takeWhile_imp (List.mem_filter.1 hx).1
          simpa using this
        have hRmem : ')' ∈ F ++ ')' :: stripParens A := by simp
        rw [List.cons_append, stripParens_match hRmem]
        have htake : (F ++ ')' :: stripParens A).takeWhile (· ≠ ')') = F := by
          rw [takeWhile_append_all _ (fun x hx => by simpa using hFne x hx)]
          rw [List.takeWhile_cons]
          simp
        have hdrop : (F ++ ')' :: stripParens A).dropWhile (· ≠ ')')
            = ')' :: stripParens A := by
          rw [dropWhile_append_all _ (fun x hx => by simpa using hFne x hx)]
          rw [List.dropWhile_cons]
          simp
        have hfilter : F.filter (fun x => !isWs x) = F := by
          rw [hF, List.filter_filter]
          simp
        have hlenA : A.length ≤ n := by
          have hd := (List.dropWhile_sublist (l := rest)
            (fun x => decide (x ≠ ')'))).length_le
          have ht : A.length
              = (List.dropWhile (fun x => decide (x ≠ ')')) rest).length - 1 := by
            rw [hA, List.length_tail]
          simp only [List.length_cons] at hl
          omega
        rw [htake, hdrop, hfilter]
        simp only [List.tail_cons]
        rw [ih A hlenA, List.cons_append]
      · rw [stripParens_other hc]
        by_cases hc2 : c = '(' ∧ ')' ∈ stripParens rest
        · exfalso
          exact hc ⟨hc2.1, stripParens_mem hc2.2⟩
        · rw [stripParens_other hc2]
          have hr : rest.length ≤ n := by
            simp only [List.length_cons] at hl
            omega
          rw [ih rest hr]

theorem stripParens_idem (l : List Char) :
    stripParens (stripParens l) = stripParens l :=
  stripParens_idem_aux l.length l le_rfl

/-! ## Facts about `trim` and `NoEndWs` -/

theorem dropWhile_eq_self_of_head {l : List Char}
    (h : ∀ c, l.head? = some c → isWs c = false) : l.dropWhile isWs = l := by
  cases l with
  | nil => rfl
  | cons c t =>
    rw [List.dropWhile_cons, h c rfl]
    simp

theorem trim_eq_self {l : List Char} (h : NoEndWs l) : trim l = l := by
  obtain ⟨h1, h2⟩ := h
  unfold trim
  rw [dropWhile_eq_self_of_head h1]
  rw [dropWhile_eq_self_of_head (by
    intro c hc
    rw [List.head?_reverse] at hc
    exact h2 c hc)]
  exact List.reverse_reverse l

theorem trim_noEndWs (l : List Char) : NoEndWs (trim l) := by
  unfold trim NoEndWs
  constructor
  · intro c hc
    rw [List.head?_reverse] at hc
    obtain ⟨pre, hpre⟩ :=
      List.dropWhile_suffix (l := (l.dropWhile isWs).reverse) isWs
    have hlast : (l.dropWhile isWs).reverse.getLast? = some c := by
      rw [← hpre, List.getLast?_append, hc]
      rfl
    rw [List.getLast?_reverse] at hlast
    exact head_dropWhile_false hlast
  · intro c hc
    rw [List.getLast?_reverse] at hc
    exact head_dropWhile_false hc

theorem nfkcTable_key_ws :
    ∀ p ∈ nfkcTable, isWs p.1 = false → ∀ d ∈ p.2, isWs d = false := by decide

theorem nfkcTable_val_ne_nil : ∀ p ∈ nfkcTable, p.2 ≠ [] := by decide

theorem nfkcChar_nonWs {c : Char} (h : isWs c = false) :
    ∀ d ∈ nfkcChar c, isWs d = false := by
  rcases nfkcChar_cases c with hc | ⟨p, hp, hpc, hc⟩
  · rw [hc]
    intro d hd
    rcases List.mem_singleton.1 hd with rfl
    exact h
  · rw [hc]
    exact nfkcTable_key_ws p hp (by rw [hpc]; exact h)

theorem nfkcChar_ne_nil (c : Char) : nfkcChar c ≠ [] := by
  rcases nfkcChar_cases c with hc | ⟨p, hp, _, hc⟩
  · rw [hc]
    simp
  · rw [hc]
    exact nfkcTable_val_ne_nil p hp

theorem nfkc_noEndWs {l : List Char} (h : NoEndWs l) : NoEndWs (nfkc l) := by
  obtain ⟨h1, h2⟩ := h
  constructor
  · intro c hc
    cases l with
    | nil => simp [nfkc] at hc
    | cons a t =>
      rw [show nfkc (a :: t) = nfkcChar a ++ nfkc t from rfl,
        List.head?_append] at hc
      obtain ⟨d, ds, hd⟩ := List.exists_cons_of_ne_nil (nfkcChar_ne_nil a)
      rw [hd] at hc
      rw [show ((d :: ds).head?).or (nfkc t).head? = some d from rfl] at hc
      have hcd : c ∈ nfkcChar a := by
        rw [hd, ← Option.some.inj hc]
        exact List.mem_cons_self _ _
      exact nfkcChar_nonWs (h1 a rfl) c hcd
  · intro c hc
    induction l using List.reverseRecOn with
    | nil => simp [nfkc] at hc
    | append_singleton t a _ =>
      rw [show nfkc (t ++ [a]) = nfkc t ++ nfkcChar a by
          unfold nfkc
          rw [List.flatMap_append]
          simp,
        List.getLast?_append] at hc
      have hsome : (nfkcChar a).getLast? ≠ none := by
        rw [Ne, List.getLast?_eq_none_iff]
        exact nfkcChar_ne_nil a
      obtain ⟨d, hd⟩ := Option.ne_none_iff_exists'.1 hsome
      rw [hd] at hc
      rw [show (some d).or (nfkc t).getLast? = some d from rfl] at hc
      have hmem : c ∈ nfkcChar a := by
        rw [← Option.some.inj hc]
        exact List.mem_of_mem_getLast? (Option.mem_def.2 hd)
      have hwa : isWs a = false := h2 a (by simp)
      exact nfkcChar_nonWs hwa c hmem

theorem stripParens_noEndWs {l : List Char} (h : NoEndWs l) :
    NoEndWs (stripParens l) := by
  obtain ⟨h1, h2⟩ := h
  constructor
  · intro c hc
    rw [stripParens_head] at hc
    exact h1 c hc
  · intro c hc
    rw [stripParens_getLast] at hc
    exact h2 c hc

/-! ## Idempotence of the two normalization routines -/

theorem normNC_noEndWs (s : List Char) : NoEndWs (normNC s) :=
  stripParens_noEndWs (nfkc_noEndWs (trim_noEndWs s))

theorem normNC_chars_fixed {s : List Char} :
    ∀ c ∈ normNC s, nfkcChar c = [c] := by
  intro c hc
  have h1 : c ∈ nfkc (trim s) := stripParens_mem hc
  obtain ⟨d, _, hd⟩ := List.mem_flatMap.1 h1
  exact nfkc_fixed_of_mem hd

theorem normNC_idem (s : List Char) : normNC (normNC s) = normNC s := by
  have h1 : trim (normNC s) = normNC s := trim_eq_self (normNC_noEndWs s)
  have h2 : nfkc (normNC s) = normNC s := nfkc_fixed_list normNC_chars_fixed
  show stripParens (nfkc (trim (normNC s))) = normNC s
  rw [h1, h2]
  exact stripParens_idem _

theorem normalizeChain_idem (s : List Char) :
    normalizeChain (normalizeChain s) = normalizeChain s := by
  have hdot : isWs '・' = false := by decide
  have hsl : isWs '/' = false := by decide
  set y := ((nfkc s).map dotChar).map slashChar with hy
  set w1 := stripWsAround '・' y with hw1
  set w2 := stripWsAround '/' w1 with hw2
  have hout : normalizeChain s = stripParens w2 := rfl
  have hmem : ∀ c ∈ normalizeChain s, c ∈ y := by
    intro c hc
    rw [hout] at hc
    exact WsDel.mem (stripWsAround_wsDel '・' y) c
      (WsDel.mem (stripWsAround_wsDel '/' w1) c (stripParens_mem hc))
  have hfix : ∀ c ∈ normalizeChain s, CharFix c :=
    fun c hc => charFix_of_mem_mapped (hmem c hc)
  have hnf : nfkc (normalizeChain s) = normalizeChain s :=
    nfkc_fixed_list (fun c hc => (hfix c hc).1)
  have hdm : (normalizeChain s).map dotChar = normalizeChain s :=
    map_fixed_list (fun c hc => (hfix c hc).2.1)
  have hsm : (normalizeChain s).map slashChar = normalizeChain s :=
    map_fixed_list (fun c hc => (hfix c hc).2.2)
  have hsep1 : SepOk '・' (normalizeChain s) := by
    rw [hout]
    exact WsDel.sepOk (stripParens_wsDel w2)
      (WsDel.sepOk (stripWsAround_wsDel '/' w1) (stripWsAround_sepOk hdot y))
  have hsep2 : SepOk '/' (normalizeChain s) := by
    rw [hout]
    exact WsDel.sepOk (stripParens_wsDel w2) (stripWsAround_sepOk hsl w1)
  have hsw1 : stripWsAround '・' (normalizeChain s) = normalizeChain s :=
    stripWsAround_eq_self hdot hsep1
  have hsw2 : stripWsAround '/' (normalizeChain s) = normalizeChain s :=
    stripWsAround_eq_self hsl hsep2
  have hsp : stripParens (normalizeChain s) = normalizeChain s := by
    rw [hout]
    exact stripParens_idem w2
  show stripParens (stripWsAround '/' (stripWsAround '・'
      (((nfkc (normalizeChain s)).map dotChar).map slashChar))) = normalizeChain s
  rw [hnf, hdm, hsm, hsw1, hsw2, hsp]

/-! ## Association-list helpers -/

theorem find?_map_upd {α β : Type} [DecidableEq α] (b : α) (g : β → β) :
    ∀ m : List (α × β),
      (m.map (fun p => if p.1 = b then (p.1, g p.2) else p)).find?
          (fun p => p.1 = b) =
        (m.find? (fun p => p.1 = b)).map (fun p => (p.1, g p.2)) := by
  intro m
  induction m with
  | nil => rfl
  | cons p t ih =>
    by_cases hp : p.1 = b
    · simp only [List.map_cons, if_pos hp, List.find?_cons, decide_eq_true hp]
      rfl
    · simp only [List.map_cons, if_neg hp, List.find?_cons,
        decide_eq_false hp]
      exact ih

theorem find?_map_upd_ne {α β : Type} [DecidableEq α] {b b' : α} (hne : b' ≠ b)
    (g : β → β) :
    ∀ m : List (α × β),
      (m.map (fun p => if p.1 = b then (p.1, g p.2) else p)).find?
          (fun p => p.1 = b') =
        m.find? (fun p => p.1 = b') := by
  intro m
  induction m with
  | nil => rfl
  | cons p t ih =>
    by_cases hp : p.1 = b
    · have hp' : ¬(p.1 = b') := by
        rw [hp]
        exact fun h => hne h.symm
      simp only [List.map_cons, if_pos hp, List.find?_cons,
        decide_eq_false hp', decide_eq_false (by simpa [hp] using hp')]
      exact ih
    · by_cases hq : p.1 = b'
      · simp only [List.map_cons, if_neg hp, List.find?_cons, decide_eq_true hq]
      · simp only [List.map_cons, if_neg hp, List.find?_cons, decide_eq_false hq]
        exact ih

theorem map_fst_upd {α β : Type} [DecidableEq α] (b : α) (g : β → β)
    (m : List (α × β)) :
    (m.map (fun p => if p.1 = b then (p.1, g p.2) else p)).map (·.1) =
      m.map (·.1) := by
  rw [List.map_map]
  apply List.map_congr_left
  intro p _
  by_cases hp : p.1 = b
  · simp [hp]
  · simp [hp]

theorem assoc_find_of_mem {α β : Type} [DecidableEq α] :
    ∀ (m : List (α × β)), (m.map (·.1)).Nodup →
      ∀ p ∈ m, m.find? (fun q => q.1 = p.1) = some p := by
  intro m
  induction m with
  | nil => intro _ p hp; simp at hp
  | cons q t ih =>
    intro hnd p hp
    rcases List.mem_cons.1 hp with rfl | hpt
    · rw [List.find?_cons, decide_eq_true rfl]
    · have hq : ¬(q.1 = p.1) := by
        intro hqp
        have : p.1 ∈ t.map (·.1) := List.mem_map_of_mem (·.1) hpt
        rw [List.map_cons] at hnd
        exact (List.nodup_cons.1 hnd).1 (hqp ▸ this)
      rw [List.find?_cons, decide_eq_false hq]
      exact ih (by rw [List.map_cons] at hnd; exact (List.nodup_cons.1 hnd).2) p hpt

/-! ## The `byBase` fold computes the attained level sets -/

theorem lookupLv_addLevel (m : List (List Char × List Nat)) (b : List Char)
    (lvl : Nat) (b' : List Char) (n : Nat) :
    n ∈ lookupLv (addLevel m b lvl) b' ↔
      n ∈ lookupLv m b' ∨ (b' = b ∧ n = lvl) := by
  unfold addLevel lookupLv
  by_cases hany : m.any (fun p => p.1 = b)
  · rw [if_pos hany]
    by_cases hb' : b' = b
    · subst hb'
      have hupd := find?_map_upd (β := List Nat) b'
        (fun x => if x.contains lvl = true then x else x ++ [lvl]) m
      rw [hupd]
      have hsome : (m.find? (fun p => p.1 = b')).isSome := by
        rw [List.find?_isSome]
        simpa using List.any_eq_true.1 hany
      obtain ⟨q, hq⟩ := Option.isSome_iff_exists.1 hsome
      rw [hq]
      simp only [Option.map_some', Option.getD_some]
      by_cases hc : q.2.contains lvl
      · rw [if_pos hc]
        have hlv : lvl ∈ q.2 := List.elem_iff.1 hc
        constructor
        · exact Or.inl
        · rintro (h | ⟨-, h⟩)
          · exact h
          · rw [h]
            exact hlv
      · rw [if_neg hc]
        rw [List.mem_append, List.mem_singleton]
        tauto
    · have hupd := find?_map_upd_ne (β := List Nat) hb'
        (fun x => if x.contains lvl = true then x else x ++ [lvl]) m
      rw [hupd]
      simp [hb']
  · rw [if_neg hany]
    have hnone : m.find? (fun p => p.1 = b) = none := by
      rw [List.find?_eq_none]
      intro p hp
      simp only [decide_eq_true_eq]
      intro hpb
      exact hany (List.any_eq_true.2 ⟨p, hp, by simpa using hpb⟩)
    by_cases hb' : b' = b
    · subst hb'
      rw [List.find?_append, hnone]
      simp
    · rw [List.find?_append]
      have h2 : ([(b, [lvl])].find? (fun p => p.1 = b')) = none := by
        rw [List.find?_eq_none]
        intro p hp
        rcases List.mem_singleton.1 hp with rfl
        simpa using fun h => hb' h.symm
      rw [h2]
      simp [hb']

theorem addLevel_keys (m : List (List Char × List Nat)) (b : List Char) (lvl : Nat) :
    (addLevel m b lvl).map (·.1) =
      if m.any (fun p => p.1 = b) then m.map (·.1) else m.map (·.1) ++ [b] := by
  unfold addLevel
  split
  · exact map_fst_upd b (fun x => if x.contains lvl = true then x else x ++ [lvl]) m
  · rw [List.map_append]
    rfl

theorem byBase_fold_lookup :
    ∀ (items : List Item) (m : List (List Char × List Nat)) (b : List Char) (n : Nat),
      n ∈ lookupLv (items.foldl byBaseStep m) b ↔
        n ∈ lookupLv m b ∨ n ∈ levelsSem items b := by
  intro items
  induction items with
  | nil =>
    intro m b n
    simp [levelsSem]
  | cons it rest ih =>
    intro m b n
    rw [List.foldl_cons, ih]
    unfold byBaseStep
    cases hparse : parseHierLevel (some it.subjName) with
    | none =>
      have hsem : levelsSem (it :: rest) b = levelsSem rest b := by
        simp [levelsSem, hparse]
      rw [hsem]
    | some p =>
      obtain ⟨b0, lvl⟩ := p
      rw [lookupLv_addLevel]
      by_cases hb : b0 = b
      · have hsem : levelsSem (it :: rest) b = lvl :: levelsSem rest b := by
          simp [levelsSem, hparse, hb]
        rw [hsem]
        subst hb
        simp only [List.mem_cons]
        tauto
      · have hsem : levelsSem (it :: rest) b = levelsSem rest b := by
          simp [levelsSem, hparse, hb]
        rw [hsem]
        have hne : ¬(b = b0 ∧ n = lvl) := fun h => hb h.1.symm
        tauto

theorem byBase_keys_nodup :
    ∀ (items : List Item) (m : List (List Char × List Nat)),
      ((m.map (·.1)).Nodup) → (((items.foldl byBaseStep m).map (·.1)).Nodup) := by
  intro items
  induction items with
  | nil => intro m h; exact h
  | cons it rest ih =>
    intro m h
    rw [List.foldl_cons]
    apply ih
    unfold byBaseStep
    cases hparse : parseHierLevel (some it.subjName) with
    | none => exact h
    | some p =>
      obtain ⟨b0, lvl⟩ := p
      rw [addLevel_keys]
      split
      · exact h
      · rename_i hany
        rw [List.nodup_append]
        refine ⟨h, List.nodup_singleton _, ?_⟩
        intro x hx hx1
        rcases List.mem_singleton.1 hx1 with rfl
        obtain ⟨p, hp, hpb⟩ := List.mem_map.1 hx
        exact hany (List.any_eq_true.2 ⟨p, hp, by simpa using hpb⟩)

theorem byBase_vals_ne_nil :
    ∀ (items : List Item) (m : List (List Char × List Nat)),
      (∀ p ∈ m, p.2 ≠ []) → ∀ p ∈ items.foldl byBaseStep m, p.2 ≠ [] := by
  intro items
  induction items with
  | nil => intro m h; exact h
  | cons it rest ih =>
    intro m h
    rw [List.foldl_cons]
    apply ih
    unfold byBaseStep
    cases hparse : parseHierLevel (some it.subjName) with
    | none => exact h
    | some p =>
      obtain ⟨b0, lvl⟩ := p
      dsimp only
      intro q hq
      unfold addLevel at hq
      by_cases hany : m.any (fun p => p.1 = b0)
      · rw [if_pos hany] at hq
        obtain ⟨q0, hq0, hq0e⟩ := List.mem_map.1 hq
        by_cases hqb : q0.1 = b0
        · rw [if_pos hqb] at hq0e
          rw [← hq0e]
          show ¬(if q0.2.contains lvl = true then q0.2 else q0.2 ++ [lvl]) = []
          by_cases hcc : q0.2.contains lvl
          · rw [if_pos hcc]
            exact h q0 hq0
          · rw [if_neg hcc]
            simp
        · rw [if_neg hqb] at hq0e
          rw [← hq0e]
          exact h q0 hq0
      · rw [if_neg hany] at hq
        rcases List.mem_append.1 hq with hq' | hq'
        · exact h q hq'
        · rcases List.mem_singleton.1 hq' with rfl
          simp

/-! ## The `have` set of normalized course names -/

theorem haveSet_fold_mem :
    ∀ (items : List Item) (s : List (List Char)) (x : List Char),
      x ∈ items.foldl haveStep s ↔
        x ∈ s ∨ ∃ it ∈ items, normCourseName (some it.subjName) = some x := by
  intro items
  induction items with
  | nil => intro s x; simp
  | cons it rest ih =>
    intro s x
    rw [List.foldl_cons, ih]
    have hstep : x ∈ haveStep s it ↔
        x ∈ s ∨ normCourseName (some it.subjName) = some x := by
      unfold haveStep
      cases hn : normCourseName (some it.subjName) with
      | none => simp
      | some nm =>
        dsimp only
        by_cases hc : s.contains nm
        · rw [if_pos hc]
          have hnm : nm ∈ s := List.elem_iff.1 hc
          constructor
          · exact Or.inl
          · rintro (h | h)
            · exact h
            · obtain rfl := Option.some.inj h
              exact hnm
        · rw [if_neg hc]
          rw [List.mem_append, List.mem_singleton]
          constructor
          · rintro (h | rfl)
            · exact Or.inl h
            · exact Or.inr rfl
          · rintro (h | h)
            · exact Or.inl h
            · exact Or.inr (Option.some.inj h).symm
    rw [hstep]
    rw [List.exists_mem_cons_iff]
    tauto

theorem haveSet_mem (items : List Item) (x : List Char) :
    x ∈ haveSet items ↔ ∃ it ∈ items, normCourseName (some it.subjName) = some x := by
  unfold haveSet
  rw [haveSet_fold_mem]
  simp

/-! ## The `byStu` grouping -/

theorem upsert_keys (m : List (StuKey × List Row)) (k : StuKey) (r : Row) :
    (upsert m k r).map (·.1) =
      if m.any (fun p => p.1 = k) then m.map (·.1) else m.map (·.1) ++ [k] := by
  unfold upsert
  split
  · exact map_fst_upd k (fun x => x ++ [r]) m
  · rw [List.map_append]
    rfl

theorem any_key_mem {α β : Type} [DecidableEq α] {m : List (α × β)} {k : α}
    (h : m.any (fun p => p.1 = k)) : k ∈ m.map (·.1) := by
  obtain ⟨p, hp, hpk⟩ := List.any_eq_true.1 h
  rw [List.mem_map]
  exact ⟨p, hp, by simpa using hpk⟩

theorem byStu_keys_mem :
    ∀ (rows : List Row) (m : List (StuKey × List Row)) (k : StuKey),
      k ∈ (rows.foldl byStuStep m).map (·.1) ↔
        k ∈ m.map (·.1) ∨ ∃ r ∈ rows, keyOf r = some k := by
  intro rows
  induction rows with
  | nil => intro m k; simp
  | cons r rest ih =>
    intro m k
    rw [List.foldl_cons, ih, List.exists_mem_cons_iff]
    unfold byStuStep
    cases hk : keyOf r with
    | none =>
      dsimp only
      constructor
      · rintro (h | h)
        · exact Or.inl h
        · exact Or.inr (Or.inr h)
      · rintro (h | h | h)
        · exact Or.inl h
        · exact absurd h (by simp)
        · exact Or.inr h
    | some k0 =>
      dsimp only
      have hup : k ∈ (upsert m k0 r).map (·.1) ↔ k ∈ m.map (·.1) ∨ k = k0 := by
        rw [upsert_keys]
        by_cases hany : m.any (fun p => p.1 = k0)
        · rw [if_pos hany]
          constructor
          · exact Or.inl
          · rintro (h | rfl)
            · exact h
            · exact any_key_mem hany
        · rw [if_neg hany]
          rw [List.mem_append, List.mem_singleton]
      rw [hup]
      have : (some k0 = some k) ↔ k = k0 := by
        constructor
        · intro h
          exact (Option.some.inj h).symm
        · intro h
          rw [h]
      rw [this]
      tauto

theorem byStu_keys_nodup :
    ∀ (rows : List Row) (m : List (StuKey × List Row)),
      ((m.map (·.1)).Nodup) → (((rows.foldl byStuStep m).map (·.1)).Nodup) := by
  intro rows
  induction rows with
  | nil => intro m h; exact h
  | cons r rest ih =>
    intro m h
    rw [List.foldl_cons]
    apply ih
    unfold byStuStep
    cases hk : keyOf r with
    | none => exact h
    | some k0 =>
      rw [upsert_keys]
      split
      · exact h
      · rename_i hany
        rw [List.nodup_append]
        refine ⟨h, List.nodup_singleton _, ?_⟩
        intro x hx hx1
        rcases List.mem_singleton.1 hx1 with rfl
        exact hany (by
          obtain ⟨p, hp, hpk⟩ := List.mem_map.1 hx
          exact List.any_eq_true.2 ⟨p, hp, by simpa using hpk⟩)

theorem option_some_or {α : Type} (a : α) (o : Option α) : (some a).or o = some a := rfl

theorem option_none_or {α : Type} (o : Option α) : (Option.or none o) = o := rfl

/-! ## The prerequisite-table loader -/

theorem assocFind_mapSet (m : List (List Char × List (List Char)))
    (k : List Char) (v : List (List Char)) (k' : List Char) :
    assocFind (mapSet m k v) k' = if k' = k then some v else assocFind m k' := by
  unfold assocFind mapSet
  by_cases hany : m.any (fun p => p.1 = k)
  · rw [if_pos hany]
    by_cases hk : k' = k
    · subst hk
      have hupd := find?_map_upd (β := List (List Char)) k' (fun _ => v) m
      rw [hupd]
      have hsome : (m.find? (fun p => p.1 = k')).isSome := by
        rw [List.find?_isSome]
        simpa using List.any_eq_true.1 hany
      obtain ⟨q, hq⟩ := Option.isSome_iff_exists.1 hsome
      rw [hq]
      simp
    · have hupd := find?_map_upd_ne (β := List (List Char)) hk (fun _ => v) m
      rw [hupd, if_neg hk]
  · rw [if_neg hany]
    have hnone : m.find? (fun p => p.1 = k) = none := by
      rw [List.find?_eq_none]
      intro p hp
      simp only [decide_eq_true_eq]
      intro hpk
      exact hany (List.any_eq_true.2 ⟨p, hp, by simpa using hpk⟩)
    by_cases hk : k' = k
    · subst hk
      rw [List.find?_append, hnone]
      simp
    · rw [List.find?_append]
      have h2 : ([(k, v)].find? (fun p => p.1 = k')) = none := by
        rw [List.find?_eq_none]
        intro p hp
        rcases List.mem_singleton.1 hp with rfl
        simpa using fun h => hk h.symm
      rw [h2]
      simp [hk]

theorem loadStep_find (m : List (List Char × List (List Char)))
    (e : List Char × List (List Char)) (k : List Char) :
    assocFind (loadStep m e) k =
      ((match normKeyOpt e.1 with
        | none => none
        | some nk => if nk = k then some (normVals e.2) else none)).or
        (assocFind m k) := by
  unfold loadStep
  cases hn : normKeyOpt e.1 with
  | none => simp
  | some nk =>
    dsimp only
    rw [assocFind_mapSet]
    by_cases hk : k = nk
    · rw [if_pos hk, if_pos (by rw [hk]), option_some_or]
    · rw [if_neg hk, if_neg (fun h => hk h.symm), option_none_or]

theorem load_fold_find :
    ∀ (entries : List (List Char × List (List Char)))
      (m : List (List Char × List (List Char))) (k : List Char),
      assocFind (entries.foldl loadStep m) k =
        (lastWins entries k).or (assocFind m k) := by
  intro entries
  induction entries with
  | nil =>
    intro m k
    unfold lastWins
    simp
  | cons e rest ih =>
    intro m k
    rw [List.foldl_cons, ih, loadStep_find]
    have hlw : lastWins (e :: rest) k =
        (lastWins rest k).or
          (match normKeyOpt e.1 with
           | none => none
           | some nk => if nk = k then some (normVals e.2) else none) := by
      unfold lastWins
      rw [List.reverse_cons, List.findSome?_append]
      congr 1
      rw [List.findSome?_cons]
      cases normKeyOpt e.1 with
      | none => rfl
      | some nk =>
        dsimp only
        by_cases hk : nk = k
        · rw [if_pos hk]
        · rw [if_neg hk]
          rfl
    rw [hlw, Option.or_assoc]

theorem normKeyOpt_fixed {k nk : List Char} (h : normKeyOpt k = some nk) :
    nk ≠ [] ∧ normNC nk = nk := by
  unfold normKeyOpt at h
  cases hn : normCourseName (some k) with
  | none => rw [hn] at h; cases h
  | some nv =>
    rw [hn] at h
    dsimp only at h
    by_cases hnil : nv = []
    · rw [if_pos hnil] at h
      cases h
    · rw [if_neg hnil] at h
      obtain rfl := Option.some.inj h
      refine ⟨hnil, ?_⟩
      unfold normCourseName at hn
      dsimp only at hn
      by_cases hkn : k = []
      · rw [if_pos hkn] at hn
        cases hn
      · rw [if_neg hkn] at hn
        obtain rfl := Option.some.inj hn
        exact normNC_idem k

theorem normVals_fixed {arr : List (List Char)} {v : List Char}
    (hv : v ∈ normVals arr) : v ≠ [] ∧ normNC v = v := by
  unfold normVals at hv
  obtain ⟨raw, _, hmap⟩ := List.mem_filterMap.1 hv
  cases hn : normCourseName (some raw) with
  | none => rw [hn] at hmap; cases hmap
  | some nv =>
    rw [hn] at hmap
    dsimp only at hmap
    by_cases hnil : nv = []
    · rw [if_pos hnil] at hmap
      cases hmap
    · rw [if_neg hnil] at hmap
      obtain rfl := Option.some.inj hmap
      refine ⟨hnil, ?_⟩
      unfold normCourseName at hn
      dsimp only at hn
      by_cases hrn : raw = []
      · rw [if_pos hrn] at hn
        cases hn
      · rw [if_neg hrn] at hn
        obtain rfl := Option.some.inj hn
        exact normNC_idem raw

theorem loadPrereqs_entries_normalized :
    ∀ (entries : List (List Char × List (List Char)))
      (m : List (List Char × List (List Char))),
      (∀ p ∈ m, p.1 ≠ [] ∧ normNC p.1 = p.1 ∧ ∀ v ∈ p.2, normNC v = v) →
      ∀ p ∈ entries.foldl loadStep m,
        p.1 ≠ [] ∧ normNC p.1 = p.1 ∧ ∀ v ∈ p.2, normNC v = v := by
  intro entries
  induction entries with
  | nil => intro m h; exact h
  | cons e rest ih =>
    intro m h
    rw [List.foldl_cons]
    apply ih
    unfold loadStep
    cases hn : normKeyOpt e.1 with
    | none => exact h
    | some nk =>
      dsimp only
      intro p hp
      unfold mapSet at hp
      by_cases hany : m.any (fun q => q.1 = nk)
      · rw [if_pos hany] at hp
        obtain ⟨q, hq, hqe⟩ := List.mem_map.1 hp
        by_cases hqk : q.1 = nk
        · rw [if_pos hqk] at hqe
          rw [← hqe]
          obtain ⟨h1, h2, -⟩ := h q hq
          exact ⟨h1, h2, fun v hv => (normVals_fixed hv).2⟩
        · rw [if_neg hqk] at hqe
          rw [← hqe]
          exact h q hq
      · rw [if_neg hany] at hp
        rcases List.mem_append.1 hp with hq | hq
        · exact h p hq
        · rcases List.mem_singleton.1 hq with rfl
          obtain ⟨h1, h2⟩ := normKeyOpt_fixed hn
          exact ⟨h1, h2, fun v hv => (normVals_fixed hv).2⟩

/-! ## Credit sums -/

theorem foldl_add_shift (f : Item → ℚ) :
    ∀ (l : List Item) (a : ℚ),
      l.foldl (fun s x => s + f x) a = a + l.foldl (fun s x => s + f x) 0 := by
  intro l
  induction l with
  | nil => intro a; simp
  | cons x t ih =>
    intro a
    rw [List.foldl_cons, List.foldl_cons, ih, ih (0 + f x)]
    ring

theorem totalOf_cons (it : Item) (l : List Item) :
    totalOf (it :: l) = it.credit + totalOf l := by
  unfold totalOf
  rw [List.foldl_cons, foldl_add_shift (fun x => x.credit) l (0 + it.credit)]
  ring

theorem baseOnlyOf_cons (it : Item) (l : List Item) :
    baseOnlyOf (it :: l) =
      (if foundationGroups.contains it.group then it.credit else 0) + baseOnlyOf l := by
  unfold baseOnlyOf
  rw [List.foldl_cons,
    foldl_add_shift (fun x => if foundationGroups.contains x.group then x.credit else 0)
      l _]
  ring

theorem khOnlyOf_cons (it : Item) (l : List Item) :
    khOnlyOf (it :: l) =
      (if isKoreanHistory (some it.subjName) then it.credit else 0) + khOnlyOf l := by
  unfold khOnlyOf
  rw [List.foldl_cons,
    foldl_add_shift (fun x => if isKoreanHistory (some x.subjName) then x.credit else 0)
      l _]
  ring

/-! ## Maximum of a level list -/

theorem foldl_max_mem : ∀ (t : List Nat) (a : Nat),
    t.foldl Nat.max a = a ∨ t.foldl Nat.max a ∈ t := by
  intro t
  induction t with
  | nil => intro a; exact Or.inl rfl
  | cons b t ih =>
    intro a
    rw [List.foldl_cons]
    rcases ih (Nat.max a b) with h | h
    · rw [h]
      rcases Nat.le_total a b with hab | hab
      · have hm : Nat.max a b = b := Nat.max_eq_right hab
        exact Or.inr (by rw [hm]; exact List.mem_cons_self _ _)
      · have hm : Nat.max a b = a := Nat.max_eq_left hab
        exact Or.inl hm
    · exact Or.inr (List.mem_cons_of_mem _ h)

theorem init_le_foldl_max : ∀ (t : List Nat) (a : Nat), a ≤ t.foldl Nat.max a := by
  intro t
  induction t with
  | nil => intro a; exact Nat.le_refl a
  | cons b t ih =>
    intro a
    rw [List.foldl_cons]
    calc a ≤ Nat.max a b := Nat.le_max_left a b
      _ ≤ t.foldl Nat.max (Nat.max a b) := ih _

theorem le_foldl_max : ∀ (t : List Nat) (a n : Nat),
    n ∈ t → n ≤ t.foldl Nat.max a := by
  intro t
  induction t with
  | nil => intro a n h; simp at h
  | cons b t ih =>
    intro a n h
    rw [List.foldl_cons]
    rcases List.mem_cons.1 h with rfl | h'
    · calc n ≤ Nat.max a n := Nat.le_max_right a n
        _ ≤ t.foldl Nat.max (Nat.max a n) := init_le_foldl_max t _
    · exact ih _ n h'

theorem foldl_max_le : ∀ (t : List Nat) (a M : Nat),
    a ≤ M → (∀ n ∈ t, n ≤ M) → t.foldl Nat.max a ≤ M := by
  intro t
  induction t with
  | nil => intro a M ha _; exact ha
  | cons b t ih =>
    intro a M ha hb
    rw [List.foldl_cons]
    exact ih _ M (Nat.max_le.2 ⟨ha, hb b (List.mem_cons_self _ _)⟩)
      (fun n hn => hb n (List.mem_cons_of_mem _ hn))

/-! ## The attained-level predicate -/

theorem attains_iff_levelsSem (items : List Item) (base : List Char) (n : Nat) :
    attains items base n = true ↔ n ∈ levelsSem items base := by
  unfold attains levelsSem
  rw [List.any_eq_true]
  constructor
  · rintro ⟨it, hit, hp⟩
    simp only [decide_eq_true_eq] at hp
    rw [List.mem_filterMap]
    exact ⟨it, hit, by rw [hp]; simp⟩
  · intro h
    rw [List.mem_filterMap] at h
    obtain ⟨it, hit, hp⟩ := h
    refine ⟨it, hit, ?_⟩
    simp only [decide_eq_true_eq]
    cases hparse : parseHierLevel (some it.subjName) with
    | none => rw [hparse] at hp; cases hp
    | some p =>
      obtain ⟨b0, n0⟩ := p
      rw [hparse] at hp
      dsimp only at hp
      by_cases hb : b0 = base
      · rw [if_pos hb] at hp
        obtain rfl := Option.some.inj hp
        rw [hb]
      · rw [if_neg hb] at hp
        cases hp

theorem byBase_lookup (items : List Item) (b : List Char) (n : Nat) :
    n ∈ lookupLv (byBase items) b ↔ n ∈ levelsSem items b := by
  unfold byBase
  rw [byBase_fold_lookup]
  have hnil : lookupLv [] b = [] := rfl
  rw [hnil]
  exact or_iff_right (by simp)

theorem byBase_entry_lookup {items : List Item} {b : List Char} {lv : List Nat}
    (h : (b, lv) ∈ byBase items) : lookupLv (byBase items) b = lv := by
  have hnd : ((byBase items).map (·.1)).Nodup :=
    byBase_keys_nodup items [] (by simp)
  have hfind := assoc_find_of_mem (byBase items) hnd (b, lv) h
  unfold lookupLv
  rw [hfind]
  rfl

/-! ## The sort of the export keys -/

theorem keyLe_ne_lt {a b : StuKey} (h1 : keyLe a b) (h2 : a ≠ b) : keyLt a b := by
  obtain ⟨a1, a2, a3⟩ := a
  obtain ⟨b1, b2, b3⟩ := b
  unfold keyLe at h1
  unfold keyLt
  simp only [ne_eq, Prod.mk.injEq, not_and] at h2
  dsimp only at h1 ⊢
  omega

theorem sortedKeys_pairwise (rows : List Row) :
    List.Pairwise keyLt (sortedKeys rows) := by
  have hsorted : List.Sorted keyLe (sortedKeys rows) := by
    unfold sortedKeys
    exact List.sorted_insertionSort keyLe _
  have hnodup : (sortedKeys rows).Nodup := by
    unfold sortedKeys
    rw [(List.perm_insertionSort keyLe _).nodup_iff]
    exact byStu_keys_nodup rows [] (by simp)
  exact (List.Pairwise.and hsorted hnodup).imp (fun h => keyLe_ne_lt h.1 h.2)

theorem sortedKeys_mem (rows : List Row) (k : StuKey) :
    k ∈ sortedKeys rows ↔ ∃ r ∈ rows, keyOf r = some k := by
  unfold sortedKeys
  rw [(List.perm_insertionSort keyLe _).mem_iff]
  unfold byStu
  rw [byStu_keys_mem]
  simp

/-! ## Blank strings and nonempty normalization results -/

theorem trim_eq_nil_iff (s : List Char) :
    trim s = [] ↔ ∀ c ∈ s, isWs c = true := by
  unfold trim
  rw [List.reverse_eq_nil_iff, List.dropWhile_eq_nil_iff]
  constructor
  · intro h c hc
    rcases List.mem_append.1
        (by rw [List.takeWhile_append_dropWhile (p := isWs) (l := s)]; exact hc :
          c ∈ s.takeWhile isWs ++ s.dropWhile isWs) with h' | h'
    · exact List.mem_takeWhile_imp h'
    · exact h c (List.mem_reverse.2 h')
  · intro h c hc
    exact h c ((List.dropWhile_sublist isWs).subset (List.mem_reverse.1 hc))

theorem nfkc_ne_nil {l : List Char} (h : l ≠ []) : nfkc l ≠ [] := by
  obtain ⟨c, t, rfl⟩ := List.exists_cons_of_ne_nil h
  show nfkcChar c ++ nfkc t ≠ []
  intro hnil
  rcases List.append_eq_nil.1 hnil with ⟨h1, -⟩
  exact nfkcChar_ne_nil c h1

theorem stripParens_ne_nil {l : List Char} (h : l ≠ []) : stripParens l ≠ [] := by
  intro hnil
  have := stripParens_head l
  rw [hnil] at this
  obtain ⟨c, t, rfl⟩ := List.exists_cons_of_ne_nil h
  simp at this

theorem normNC_ne_nil {s : List Char} (h : trim s ≠ []) : normNC s ≠ [] :=
  stripParens_ne_nil (nfkc_ne_nil h)

/-- A level list whose membership agrees with `attains` agrees with it
as a boolean-valued function as well. -/
theorem contains_eq_attains {items : List Item} {base : List Char} {lv : List Nat}
    (hsem : ∀ n, n ∈ lv ↔ attains items base n = true) (i : Nat) :
    lv.contains i = attains items base i := by
  show lv.elem i = attains items base i
  cases hc : lv.elem i with
  | false =>
    cases ha : attains items base i with
    | false => rfl
    | true =>
      have ht : lv.elem i = true := List.elem_iff.2 ((hsem i).2 ha)
      rw [hc] at ht
      cases ht
  | true =>
    cases ha : attains items base i with
    | true => rfl
    | false =>
      have ht := (hsem i).1 (List.elem_iff.1 hc)
      rw [ha] at ht
      cases ht

/-- The key column of the exported records is exactly the sorted key
list. -/
theorem exportRecords_keys (rows : List Row) :
    (exportRecords rows).map (fun e => e.key) = sortedKeys rows := by
  unfold exportRecords
  rw [List.map_map]
  have h : ((fun (e : Rec) => e.key) ∘ recOf rows) = fun k => k := by
    funext k
    rfl
  rw [h]
  exact List.map_id' _

/-! ## Concrete evaluations of the rational aggregates -/

theorem totalOf_pair (i1 i2 : Item) : totalOf [i1, i2] = i1.credit + i2.credit := by
  rw [totalOf_cons, totalOf_cons, show totalOf ([] : List Item) = 0 from rfl]
  ring

theorem baseOnlyOf_pair (i1 i2 : Item) :
    baseOnlyOf [i1, i2] =
      (if foundationGroups.contains i1.group then i1.credit else 0) +
      (if foundationGroups.contains i2.group then i2.credit else 0) := by
  rw [baseOnlyOf_cons, baseOnlyOf_cons, show baseOnlyOf ([] : List Item) = 0 from rfl]
  ring

theorem khOnlyOf_pair (i1 i2 : Item) :
    khOnlyOf [i1, i2] =
      (if isKoreanHistory (some i1.subjName) then i1.credit else 0) +
      (if isKoreanHistory (some i2.subjName) then i2.credit else 0) := by
  rw [khOnlyOf_cons, khOnlyOf_cons, show khOnlyOf ([] : List Item) = 0 from rfl]
  ring

theorem totalOf_single (i1 : Item) : totalOf [i1] = i1.credit := by
  rw [totalOf_cons, show totalOf ([] : List Item) = 0 from rfl]
  ring

theorem baseOnlyOf_single (i1 : Item) :
    baseOnlyOf [i1] = if foundationGroups.contains i1.group then i1.credit else 0 := by
  rw [baseOnlyOf_cons, show baseOnlyOf ([] : List Item) = 0 from rfl]
  ring

theorem khOnlyOf_single (i1 : Item) :
    khOnlyOf [i1] = if isKoreanHistory (some i1.subjName) then i1.credit else 0 := by
  rw [khOnlyOf_cons, show khOnlyOf ([] : List Item) = 0 from rfl]
  ring

theorem bucket51_eval :
    (bucketOf rows51 (1, 1, 1)).map toItem =
      [Item.mk "국어".toList "문학".toList 51 none none,
       Item.mk "미술".toList "미술".toList 49 none none] := by decide

theorem bucket50_eval :
    (bucketOf rows50 (1, 1, 1)).map toItem =
      [Item.mk "국어".toList "문학".toList 50 none none,
       Item.mk "미술".toList "미술".toList 50 none none] := by decide

theorem bucketDouble_eval :
    (bucketOf rowsDouble (1, 1, 1)).map toItem =
      [Item.mk "수학".toList "한국사".toList 4 none none] := by decide

theorem total51_eval : totalOf ((bucketOf rows51 (1, 1, 1)).map toItem) = 100 := by
  rw [bucket51_eval, totalOf_pair]
  dsimp only
  norm_num

theorem pct51_eval : pctOf ((bucketOf rows51 (1, 1, 1)).map toItem) = 51 := by
  rw [bucket51_eval]
  have ht : totalOf [Item.mk "국어".toList "문학".toList 51 none none,
      Item.mk "미술".toList "미술".toList 49 none none] = 100 := by
    rw [totalOf_pair]
    dsimp only
    norm_num
  have hb : baseOnlyOf [Item.mk "국어".toList "문학".toList 51 none none,
      Item.mk "미술".toList "미술".toList 49 none none] = 51 := by
    rw [baseOnlyOf_pair]
    dsimp only
    rw [if_pos (by decide : foundationGroups.contains ("국어".toList) = true),
      if_neg (by decide : ¬foundationGroups.contains ("미술".toList) = true)]
    norm_num
  have hk : khOnlyOf [Item.mk "국어".toList "문학".toList 51 none none,
      Item.mk "미술".toList "미술".toList 49 none none] = 0 := by
    rw [khOnlyOf_pair]
    dsimp only
    rw [if_neg (by decide : ¬isKoreanHistory (some "문학".toList) = true),
      if_neg (by decide : ¬isKoreanHistory (some "미술".toList) = true)]
    norm_num
  unfold pctOf
  rw [ht, hb, hk, if_pos (by norm_num : (0 : ℚ) < 100)]
  unfold jsRound
  norm_num

theorem flag51_eval : (recOf rows51 (1, 1, 1)).flagged = true := by
  show decide (50 < pctOf ((bucketOf rows51 (1, 1, 1)).map toItem)) = true
  rw [pct51_eval]
  decide

theorem pct50_eval : pctOf ((bucketOf rows50 (1, 1, 1)).map toItem) = 50 := by
  rw [bucket50_eval]
  have ht : totalOf [Item.mk "국어".toList "문학".toList 50 none none,
      Item.mk "미술".toList "미술".toList 50 none none] = 100 := by
    rw [totalOf_pair]
    dsimp only
    norm_num
  have hb : baseOnlyOf [Item.mk "국어".toList "문학".toList 50 none none,
      Item.mk "미술".toList "미술".toList 50 none none] = 50 := by
    rw [baseOnlyOf_pair]
    dsimp only
    rw [if_pos (by decide : foundationGroups.contains ("국어".toList) = true),
      if_neg (by decide : ¬foundationGroups.contains ("미술".toList) = true)]
    norm_num
  have hk : khOnlyOf [Item.mk "국어".toList "문학".toList 50 none none,
      Item.mk "미술".toList "미술".toList 50 none none] = 0 := by
    rw [khOnlyOf_pair]
    dsimp only
    rw [if_neg (by decide : ¬isKoreanHistory (some "문학".toList) = true),
      if_neg (by decide : ¬isKoreanHistory (some "미술".toList) = true)]
    norm_num
  unfold pctOf
  rw [ht, hb, hk, if_pos (by norm_num : (0 : ℚ) < 100)]
  unfold jsRound
  norm_num

theorem flag50_eval : (recOf rows50 (1, 1, 1)).flagged = false := by
  show decide (50 < pctOf ((bucketOf rows50 (1, 1, 1)).map toItem)) = false
  rw [pct50_eval]
  decide

theorem totalDouble_eval :
    totalOf ((bucketOf rowsDouble (1, 1, 1)).map toItem) = 4 := by
  rw [bucketDouble_eval, totalOf_single]

theorem baseDouble_eval :
    baseOnlyOf ((bucketOf rowsDouble (1, 1, 1)).map toItem) = 4 := by
  rw [bucketDouble_eval, baseOnlyOf_single]
  dsimp only
  rw [if_pos (by decide : foundationGroups.contains ("수학".toList) = true)]

theorem khDouble_eval :
    khOnlyOf ((bucketOf rowsDouble (1, 1, 1)).map toItem) = 4 := by
  rw [bucketDouble_eval, khOnlyOf_single]
  dsimp only
  rw [if_pos (by decide : isKoreanHistory (some "한국사".toList) = true)]

theorem pctDouble_eval :
    pctOf ((bucketOf rowsDouble (1, 1, 1)).map toItem) = 200 := by
  unfold pctOf
  rw [totalDouble_eval, baseDouble_eval, khDouble_eval,
    if_pos (by norm_num : (0 : ℚ) < 4)]
  unfold jsRound
  norm_num

/-! ## Claim theorems -/

/-- C1: the hierarchy parser does recognize the claimed examples
(`물리학Ⅰ` → level 1, `물리학VIII` → level 8 by longest-first ASCII
matching, bare `물리학` → absent), but the universal reading of the
claim fails on the code: the `\s` written inside the template literal
is a literal `s`, so an ASCII `s` directly before the numeral is
swallowed into the matched tail, which then misses the numeral table
(`PhysicsI` → absent instead of base `Physics`, level 1); moreover the
ASCII alternation `VIII|VII|VI|IV|IX|III|II|I|X` lacks a lone `V`, and
NFKC turns `Ⅴ` into `V` before matching, so level 5 is unreachable from
either alphabet (`물리학Ⅴ` and `물리학V` → absent) even though the
numeral table maps both to 5. -/
theorem C1_parseHierLevel_eval :
    parseHierLevel (some "물리학Ⅰ".toList) = some ("물리학".toList, 1) ∧
    parseHierLevel (some "물리학VIII".toList) = some ("물리학".toList, 8) ∧
    parseHierLevel (some "물리학".toList) = none ∧
    parseHierLevel (some "PhysicsI".toList) = none ∧
    parseHierLevel (some "물리학Ⅴ".toList) = none ∧
    parseHierLevel (some "물리학V".toList) = none := by
  exact ⟨by decide, by decide, by decide, by decide, by decide, by decide⟩

/-- C2: `canonGroup` sends `null`, the empty string and every
whitespace-only string to `기타` ("Other"); every input whose
normalized, fully whitespace-stripped comparison form lies in the fixed
alias set is sent to the merged label, and every other input is sent to
the whitespace-preserving normalized form (never the stripped
comparison form).  Concrete alias and pass-through instances
included. -/
theorem C2_canonGroup_spec :
    canonGroup none = "기타".toList ∧
    (∀ s : List Char, (∀ c ∈ s, isWs c = true) → canonGroup (some s) = "기타".toList) ∧
    (∀ s : List Char, ¬(∀ c ∈ s, isWs c = true) →
      (removeAllWs (normalizeChain (trim s)) ∈ aliasesApp →
        canonGroup (some s) = mergedTarget) ∧
      (removeAllWs (normalizeChain (trim s)) ∉ aliasesApp →
        canonGroup (some s) = normalizeChain (trim s))) ∧
    canonGroup (some "교양".toList) = mergedTarget ∧
    canonGroup (some "제2 외국어".toList) = mergedTarget ∧
    canonGroup (some " 기술・가정/정보 ".toList) = mergedTarget ∧
    canonGroup (some "사회 문화".toList) = "사회 문화".toList := by
  refine ⟨rfl, ?_, ?_, by decide, by decide, by decide, by decide⟩
  · intro s hws
    show canonGroupWith aliasesApp (some s) = "기타".toList
    unfold canonGroupWith
    dsimp only
    rw [if_pos ((trim_eq_nil_iff s).2 hws)]
  · intro s hws
    have htr : ¬(trim s = []) := fun h => hws ((trim_eq_nil_iff s).1 h)
    constructor
    · intro hmem
      show canonGroupWith aliasesApp (some s) = mergedTarget
      unfold canonGroupWith
      dsimp only
      rw [if_neg htr, if_pos (List.elem_iff.2 hmem)]
    · intro hmem
      show canonGroupWith aliasesApp (some s) = normalizeChain (trim s)
      unfold canonGroupWith
      dsimp only
      rw [if_neg htr, if_neg (fun h => hmem (List.elem_iff.1 h))]

theorem C2_canonGroup_spec_witness :
    ((∀ c ∈ "   ".toList, isWs c = true) ∧
      canonGroup (some "   ".toList) = "기타".toList) ∧
    (¬(∀ c ∈ "기술 ・ 가정".toList, isWs c = true) ∧
      removeAllWs (normalizeChain (trim "기술 ・ 가정".toList)) ∈ aliasesApp ∧
      canonGroup (some "기술 ・ 가정".toList) = mergedTarget) ∧
    (¬(∀ c ∈ "과학".toList, isWs c = true) ∧
      removeAllWs (normalizeChain (trim "과학".toList)) ∉ aliasesApp ∧
      canonGroup (some "과학".toList) = normalizeChain (trim "과학".toList)) :=
  ⟨⟨by decide, C2_canonGroup_spec.2.1 _ (by decide)⟩,
   ⟨by decide, by decide,
     (C2_canonGroup_spec.2.2.1 _ (by decide)).1 (by decide)⟩,
   ⟨by decide, by decide,
     (C2_canonGroup_spec.2.2.1 _ (by decide)).2 (by decide)⟩⟩

/-- C7 counterexample: the course-name normalization is not idempotent
as a string-to-string function: on the whitespace-only string `"   "`
one application yields the empty string (a string), while a second
application hits the falsiness guard and yields `null`. -/
theorem C7_counterexample :
    normCourseName (some "   ".toList) = some [] ∧
    normCourseName (normCourseName (some "   ".toList)) = none := by
  exact ⟨by decide, by decide⟩

/-- C7 (amended): the `canonGroup` normalization chain is idempotent on
every string, and `normCourseName` is idempotent on `null`, on the
empty string and on every string whose trimmed form is nonempty; only
nonempty whitespace-only strings escape (first application `""`, second
`null`). -/
theorem C7_normalize_idem (s : List Char) :
    normalizeChain (normalizeChain s) = normalizeChain s ∧
    (trim s ≠ [] →
      normCourseName (normCourseName (some s)) = normCourseName (some s)) ∧
    normCourseName (normCourseName none) = normCourseName none ∧
    (s = [] → normCourseName (normCourseName (some s)) = normCourseName (some s)) := by
  refine ⟨normalizeChain_idem s, ?_, rfl, ?_⟩
  · intro htr
    have hs : s ≠ [] := fun h => htr (by rw [h]; rfl)
    have h1 : normCourseName (some s) = some (normNC s) := by
      unfold normCourseName
      dsimp only
      rw [if_neg hs]
    rw [h1]
    have h2 : normNC s ≠ [] := normNC_ne_nil htr
    show normCourseName (some (normNC s)) = some (normNC s)
    unfold normCourseName
    dsimp only
    rw [if_neg h2, normNC_idem]
  · intro hs
    subst hs
    rfl

theorem C7_normalize_idem_witness :
    trim "수학 (기초 과정)".toList ≠ [] ∧
    normCourseName (normCourseName (some "수학 (기초 과정)".toList)) =
      normCourseName (some "수학 (기초 과정)".toList) :=
  ⟨by decide, (C7_normalize_idem "수학 (기초 과정)".toList).2.1 (by decide)⟩

/-- C9 counterexample: the two UI variants do not implement the same
canonicalization: on the raw group `제2외국어/한문` the `App.tsx`
variant returns the merged label while the `part_000` variant (whose
alias list lacks that entry) passes the string through unchanged. -/
theorem C9_counterexample :
    canonGroupEarly (some "제2외국어/한문".toList) = "제2외국어/한문".toList ∧
    canonGroup (some "제2외국어/한문".toList) = mergedTarget ∧
    canonGroupEarly (some "제2외국어/한문".toList) ≠
      canonGroup (some "제2외국어/한문".toList) := by
  exact ⟨by decide, by decide, by decide⟩

/-- C9 (amended): the two variants agree on `null` and on every raw
input whose whitespace-stripped normalized comparison form is not the
one alias `제2외국어/한문` that only the `App.tsx` variant merges. -/
theorem C9_variants_agree (raw : Option (List Char)) :
    (∀ s, raw = some s →
      removeAllWs (normalizeChain (trim s)) ≠ "제2외국어/한문".toList) →
    canonGroupEarly raw = canonGroup raw := by
  intro h
  cases raw with
  | none => rfl
  | some s =>
    show canonGroupWith aliasesEarly (some s) = canonGroupWith aliasesApp (some s)
    unfold canonGroupWith
    dsimp only
    by_cases htr : trim s = []
    · rw [if_pos htr, if_pos htr]
    · rw [if_neg htr, if_neg htr]
      have hne := h s rfl
      have hiff : removeAllWs (normalizeChain (trim s)) ∈ aliasesEarly ↔
          removeAllWs (normalizeChain (trim s)) ∈ aliasesApp := by
        unfold aliasesEarly aliasesApp
        simp only [List.mem_cons, List.not_mem_nil, or_false]
        constructor
        · rintro (h' | h' | h' | h' | h' | h')
          · exact Or.inl h'
          · exact Or.inr (Or.inl h')
          · exact Or.inr (Or.inr (Or.inl h'))
          · exact Or.inr (Or.inr (Or.inr (Or.inr (Or.inl h'))))
          · exact Or.inr (Or.inr (Or.inr (Or.inr (Or.inr (Or.inl h')))))
          · exact Or.inr (Or.inr (Or.inr (Or.inr (Or.inr (Or.inr h')))))
        · rintro (h' | h' | h' | h' | h' | h' | h')
          · exact Or.inl h'
          · exact Or.inr (Or.inl h')
          · exact Or.inr (Or.inr (Or.inl h'))
          · exact absurd h' hne
          · exact Or.inr (Or.inr (Or.inr (Or.inl h')))
          · exact Or.inr (Or.inr (Or.inr (Or.inr (Or.inl h'))))
          · exact Or.inr (Or.inr (Or.inr (Or.inr (Or.inr h'))))
      by_cases hmem : removeAllWs (normalizeChain (trim s)) ∈ aliasesEarly
      · rw [if_pos (List.elem_iff.2 hmem), if_pos (List.elem_iff.2 (hiff.1 hmem))]
      · rw [if_neg (fun hc => hmem (List.elem_iff.1 hc)),
          if_neg (fun hc => (fun hm => hmem (hiff.2 hm)) (List.elem_iff.1 hc))]

theorem C9_variants_agree_witness :
    (∀ s, (some "수학".toList : Option (List Char)) = some s →
      removeAllWs (normalizeChain (trim s)) ≠ "제2외국어/한문".toList) ∧
    canonGroupEarly (some "수학".toList) = canonGroup (some "수학".toList) := by
  refine ⟨?_, C9_variants_agree (some "수학".toList) ?_⟩
  · rintro s hs
    obtain rfl := Option.some.inj hs
    decide
  · rintro s hs
    obtain rfl := Option.some.inj hs
    decide

/-- C3 counterexample: a base with only one attained level need not
produce an empty finding: a student whose single parseable course is
`화학Ⅱ` (only level 2 attained, maximum 2) yields the finding
`(화학, [1])`, because the loop reports every level of `[1, max-1]`
absent from the attained set, gap or no gap. -/
theorem C3_counterexample :
    byBase itemsChem2 = [("화학".toList, [2])] ∧
    seqFindings itemsChem2 = [("화학".toList, [1])] ∧
    seqFindings itemsChem2 ≠ [] := by
  exact ⟨by decide, by decide, by decide⟩

/-- C3 (amended): the sequence check reports `(base, missing)` exactly
when `missing` is the nonempty list of the integers of `[1, M-1]` not
attained for `base`, where `M` is the maximum attained level of `base`;
levels {1,3} for 화학 yield exactly the missing list `[2]`, and levels
{1,2,3} yield no finding.  (A base whose only attained level is some
`M > 1` yields the finding `[1, ..., M-1]`, not nothing.) -/
theorem C3_seqFindings_spec :
    (∀ (items : List Item) (base : List Char) (miss : List Nat),
      (base, miss) ∈ seqFindings items ↔
        ∃ M, attains items base M = true ∧
          (∀ n, attains items base n = true → n ≤ M) ∧
          miss = (List.range' 1 (M - 1)).filter (fun i => !attains items base i) ∧
          miss ≠ []) ∧
    seqFindings itemsChem13 = [("화학".toList, [2])] ∧
    seqFindings itemsChem123 = [] := by
  refine ⟨?_, by decide, by decide⟩
  intro items base miss
  constructor
  · intro h
    unfold seqFindings at h
    obtain ⟨p, hp, hpe⟩ := List.mem_filterMap.1 h
    dsimp only at hpe
    by_cases hm : missingOf p.2 = []
    · rw [if_pos hm] at hpe
      cases hpe
    · rw [if_neg hm] at hpe
      rw [Option.some.injEq, Prod.mk.injEq] at hpe
      obtain ⟨hp1, hp2⟩ := hpe
      have hpmem : (base, p.2) ∈ byBase items := by rw [← hp1]; exact hp
      have hlv : lookupLv (byBase items) base = p.2 := byBase_entry_lookup hpmem
      have hsem : ∀ n, n ∈ p.2 ↔ attains items base n = true := by
        intro n
        rw [attains_iff_levelsSem, ← byBase_lookup, hlv]
      have hp' : p ∈ items.foldl byBaseStep [] := by
        unfold byBase at hp
        exact hp
      have hne2 : p.2 ≠ [] :=
        byBase_vals_ne_nil items [] (fun q hq => absurd hq (List.not_mem_nil q)) p hp'
      refine ⟨p.2.foldl Nat.max 0, ?_, ?_, ?_, ?_⟩
      · obtain ⟨x, hx⟩ := List.exists_mem_of_ne_nil p.2 hne2
        rcases foldl_max_mem p.2 0 with h0 | hmem
        · have hx0 : x ≤ p.2.foldl Nat.max 0 := le_foldl_max p.2 0 x hx
          rw [h0] at hx0
          have hxz : x = 0 := Nat.le_zero.1 hx0
          rw [h0]
          rw [hxz] at hx
          exact (hsem 0).1 hx
        · exact (hsem _).1 hmem
      · intro n hn
        exact le_foldl_max p.2 0 n ((hsem n).2 hn)
      · rw [← hp2]
        unfold missingOf
        dsimp only
        refine List.filter_congr ?_
        intro i hi
        rw [contains_eq_attains hsem i]
      · rw [← hp2]
        exact hm
  · rintro ⟨M, hM1, hM2, hmiss, hne⟩
    have hMlk : M ∈ lookupLv (byBase items) base :=
      (byBase_lookup items base M).2 ((attains_iff_levelsSem items base M).1 hM1)
    unfold lookupLv at hMlk
    cases hfind : (byBase items).find? (fun p => p.1 = base) with
    | none =>
      rw [hfind] at hMlk
      simp at hMlk
    | some q =>
      have hq1 : q.1 = base := by
        have hpq := List.find?_some hfind
        simpa using hpq
      have hqmem : q ∈ byBase items := List.mem_of_find?_eq_some hfind
      have hlv : lookupLv (byBase items) base = q.2 := by
        unfold lookupLv
        rw [hfind]
        rfl
      have hsem : ∀ n, n ∈ q.2 ↔ attains items base n = true := by
        intro n
        rw [attains_iff_levelsSem, ← byBase_lookup, hlv]
      have hMeq : q.2.foldl Nat.max 0 = M := by
        apply Nat.le_antisymm
        · exact foldl_max_le q.2 0 M (Nat.zero_le M) (fun n hn => hM2 n ((hsem n).1 hn))
        · exact le_foldl_max q.2 0 M ((hsem M).2 hM1)
      have hmf : missingOf q.2 = miss := by
        unfold missingOf
        dsimp only
        rw [hMeq, hmiss]
        refine List.filter_congr ?_
        intro i hi
        rw [contains_eq_attains hsem i]
      unfold seqFindings
      rw [List.mem_filterMap]
      refine ⟨q, hqmem, ?_⟩
      dsimp only
      rw [hmf, if_neg hne, hq1]

theorem C3_seqFindings_spec_witness :
    ∃ M, attains itemsChem13 ("화학".toList) M = true ∧
      (∀ n, attains itemsChem13 ("화학".toList) n = true → n ≤ M) ∧
      [2] = (List.range' 1 (M - 1)).filter
        (fun i => !attains itemsChem13 ("화학".toList) i) ∧
      ([2] : List Nat) ≠ [] :=
  (C3_seqFindings_spec.1 itemsChem13 ("화학".toList) [2]).1 (by decide)

/-- C4: the explicit-prerequisite check reports `(course, missing)`
exactly when `course` is a table key held by the student (membership in
the set of the student's normalized course names) and `missing` is the
nonempty list of required names absent from that set; with the table
built from `{미적분: [수학Ⅰ, 수학Ⅱ]}` and a student holding only
미적분 and 수학Ⅰ, the single finding is `(미적분, [수학II])` (names
NFKC-normalized, so `수학Ⅱ` is reported as `수학II`). -/
theorem C4_explicit_spec :
    (∀ (table : List (List Char × List (List Char))) (items : List Item)
        (course : List Char) (miss : List (List Char)),
      (course, miss) ∈ explicitFindings table items ↔
        ∃ reqs, (course, reqs) ∈ table ∧ course ∈ haveSet items ∧
          miss = reqs.filter (fun r => !(haveSet items).contains r) ∧ miss ≠ []) ∧
    (∀ (items : List Item) (x : List Char),
      x ∈ haveSet items ↔ ∃ it ∈ items, normCourseName (some it.subjName) = some x) ∧
    explicitFindings (loadPrereqs calcEntries) itemsCalc =
      [("미적분".toList, ["수학II".toList])] := by
  refine ⟨?_, haveSet_mem, by decide⟩
  intro table items course miss
  unfold explicitFindings
  rw [List.mem_filterMap]
  constructor
  · rintro ⟨p, hp, hpe⟩
    dsimp only at hpe
    by_cases hc : (haveSet items).contains p.1 = true
    · rw [if_pos hc] at hpe
      by_cases hm : p.2.filter (fun r => !(haveSet items).contains r) = []
      · rw [if_pos hm] at hpe
        cases hpe
      · rw [if_neg hm] at hpe
        rw [Option.some.injEq, Prod.mk.injEq] at hpe
        obtain ⟨h1, h2⟩ := hpe
        refine ⟨p.2, ?_, ?_, ?_, ?_⟩
        · rw [← h1]
          exact hp
        · rw [← h1]
          exact List.elem_iff.1 (hc : (haveSet items).elem p.1 = true)
        · exact h2.symm
        · rw [← h2]
          exact hm
    · rw [if_neg hc] at hpe
      cases hpe
  · rintro ⟨reqs, htab, hcourse, hmiss, hne⟩
    refine ⟨(course, reqs), htab, ?_⟩
    dsimp only
    rw [if_pos (List.elem_iff.2 hcourse : (haveSet items).contains course = true),
      if_neg (fun h => hne (by rw [hmiss]; exact h)), ← hmiss]

theorem C4_explicit_spec_witness :
    ∃ reqs, ("미적분".toList, reqs) ∈ loadPrereqs calcEntries ∧
      "미적분".toList ∈ haveSet itemsCalc ∧
      ["수학II".toList] = reqs.filter (fun r => !(haveSet itemsCalc).contains r) ∧
      (["수학II".toList] : List (List Char)) ≠ [] :=
  (C4_explicit_spec.1 (loadPrereqs calcEntries) itemsCalc ("미적분".toList)
    ["수학II".toList]).1 (by decide)

/-- C5: the exported ratio is the percentage
`(foundation + koreanHistory) / total * 100` rounded to one decimal
place when the total is positive and `0` otherwise; the flag is set
exactly when the ratio exceeds 50; numerator 51 over total 100 gives
51.0 and the flag, 50 over 100 gives 50.0 and no flag. -/
theorem C5_ratio_spec :
    (∀ items : List Item, 0 < totalOf items →
      pctOf items =
        round1dp ((baseOnlyOf items + khOnlyOf items) / totalOf items * 100)) ∧
    (∀ items : List Item, ¬0 < totalOf items → pctOf items = 0) ∧
    (∀ (rows : List Row) (k : StuKey),
      (recOf rows k).flagged = true ↔ 50 < (recOf rows k).pct) ∧
    ((recOf rows51 (1, 1, 1)).pct = 51 ∧ (recOf rows51 (1, 1, 1)).flagged = true) ∧
    ((recOf rows50 (1, 1, 1)).pct = 50 ∧ (recOf rows50 (1, 1, 1)).flagged = false) := by
  refine ⟨?_, ?_, ?_, ⟨pct51_eval, flag51_eval⟩, ⟨pct50_eval, flag50_eval⟩⟩
  · intro items h
    unfold pctOf round1dp
    rw [if_pos h]
    have he : (baseOnlyOf items + khOnlyOf items) / totalOf items * 100 * 10 =
        (baseOnlyOf items + khOnlyOf items) / totalOf items * 1000 := by ring
    rw [he]
  · intro items h
    unfold pctOf
    rw [if_neg h]
  · intro rows k
    show decide (50 < pctOf ((bucketOf rows k).map toItem)) = true ↔
      50 < pctOf ((bucketOf rows k).map toItem)
    exact decide_eq_true_iff

theorem C5_ratio_spec_witness :
    (0 < totalOf ((bucketOf rows51 (1, 1, 1)).map toItem) ∧
      pctOf ((bucketOf rows51 (1, 1, 1)).map toItem) =
        round1dp ((baseOnlyOf ((bucketOf rows51 (1, 1, 1)).map toItem) +
            khOnlyOf ((bucketOf rows51 (1, 1, 1)).map toItem)) /
          totalOf ((bucketOf rows51 (1, 1, 1)).map toItem) * 100)) ∧
    (¬0 < totalOf ([] : List Item) ∧ pctOf ([] : List Item) = 0) :=
  ⟨⟨by rw [total51_eval]; norm_num,
    C5_ratio_spec.1 _ (by rw [total51_eval]; norm_num)⟩,
   ⟨by norm_num [totalOf], C5_ratio_spec.2.1 _ (by norm_num [totalOf])⟩⟩

/-- C6: the export emits exactly one record per complete student key
(a key appears among the exported records exactly when some input row
carries it in full), and the records are strictly sorted by grade, then
class, then number, whatever the input order; the four-student unsorted
instance comes out in the order (1,1,2), (1,1,5), (1,2,1), (2,1,1). -/
theorem C6_export_spec :
    (∀ rows : List Row,
      List.Pairwise keyLt ((exportRecords rows).map (fun e => e.key))) ∧
    (∀ (rows : List Row) (k : StuKey),
      (∃ e ∈ exportRecords rows, e.key = k) ↔ ∃ r ∈ rows, keyOf r = some k) ∧
    (exportRecords rowsUnsorted).map (fun e => e.key) =
      [(1, 1, 2), (1, 1, 5), (1, 2, 1), (2, 1, 1)] := by
  refine ⟨?_, ?_, ?_⟩
  · intro rows
    rw [exportRecords_keys]
    exact sortedKeys_pairwise rows
  · intro rows k
    rw [← sortedKeys_mem rows k]
    constructor
    · rintro ⟨e, he, rfl⟩
      unfold exportRecords at he
      obtain ⟨k', hk', rfl⟩ := List.mem_map.1 he
      exact hk'
    · intro hk
      exact ⟨recOf rows k, List.mem_map.2 ⟨k, hk, rfl⟩, rfl⟩
  · rw [exportRecords_keys]
    decide

theorem C6_export_spec_witness :
    ∃ e ∈ exportRecords rowsUnsorted, e.key = ((1 : Nat), (1 : Nat), (2 : Nat)) :=
  (C6_export_spec.2.1 rowsUnsorted (1, 1, 2)).2
    ⟨mkRow 1 1 2 "국어" "문학" 1,
      List.mem_cons_of_mem _ (List.mem_cons_of_mem _
        (List.mem_cons_of_mem _ (List.mem_cons_self _ _))), by decide⟩

/-- C8: every entry of the loaded prerequisite table has a nonempty key
fixed under course-name normalization and normalization-fixed values;
looking a key up yields exactly the normalized requirement list of the
textually last raw entry whose normalized key matches (entries with an
empty normalized key having been dropped); the three-entry loader
instance keeps only `(미적분, [수학II])`. -/
theorem C8_loadPrereqs_spec :
    (∀ (entries : List (List Char × List (List Char)))
        (p : List Char × List (List Char)), p ∈ loadPrereqs entries →
      p.1 ≠ [] ∧ normNC p.1 = p.1 ∧ ∀ v ∈ p.2, normNC v = v) ∧
    (∀ (entries : List (List Char × List (List Char))) (k : List Char),
      assocFind (loadPrereqs entries) k = lastWins entries k) ∧
    loadPrereqs loaderEntries = [("미적분".toList, ["수학II".toList])] := by
  refine ⟨?_, ?_, by decide⟩
  · intro entries p hp
    have hp' : p ∈ entries.foldl loadStep [] := by
      unfold loadPrereqs at hp
      exact hp
    exact loadPrereqs_entries_normalized entries []
      (fun q hq => absurd hq (List.not_mem_nil q)) p hp'
  · intro entries k
    unfold loadPrereqs
    rw [load_fold_find]
    cases lastWins entries k <;> rfl

theorem C8_loadPrereqs_spec_witness :
    ("미적분".toList, ["수학II".toList]) ∈ loadPrereqs loaderEntries ∧
    (("미적분".toList : List Char) ≠ [] ∧
      normNC "미적분".toList = "미적분".toList ∧
      ∀ v ∈ (["수학II".toList] : List (List Char)), normNC v = v) :=
  ⟨by decide,
    C8_loadPrereqs_spec.1 loaderEntries ("미적분".toList, ["수학II".toList])
      (by decide)⟩

/-- C10: a row counts toward the Korean-history sum by course name
alone, so a Korean-history course filed under a foundation group adds
its credit to both sums of the ratio numerator; the single-row student
(group 수학, course 한국사, 4 credits) gets total 4, foundation 4,
Korean-history 4 and a reported percentage of 200, exceeding 100. -/
theorem C10_doubleCount_spec :
    (∀ (it : Item) (l : List Item),
      foundationGroups.contains it.group = true →
      isKoreanHistory (some it.subjName) = true →
      totalOf (it :: l) = it.credit + totalOf l ∧
      baseOnlyOf (it :: l) = it.credit + baseOnlyOf l ∧
      khOnlyOf (it :: l) = it.credit + khOnlyOf l) ∧
    ((recOf rowsDouble (1, 1, 1)).total = 4 ∧
      (recOf rowsDouble (1, 1, 1)).baseOnly = 4 ∧
      (recOf rowsDouble (1, 1, 1)).khOnly = 4 ∧
      (recOf rowsDouble (1, 1, 1)).pct = 200 ∧
      100 < (recOf rowsDouble (1, 1, 1)).pct) := by
  refine ⟨?_, totalDouble_eval, baseDouble_eval, khDouble_eval, pctDouble_eval, ?_⟩
  case refine_2 =>
    show (100 : ℚ) < pctOf ((bucketOf rowsDouble (1, 1, 1)).map toItem)
    rw [pctDouble_eval]
    norm_num
  intro it l h1 h2
  refine ⟨totalOf_cons it l, ?_, ?_⟩
  · rw [baseOnlyOf_cons, if_pos h1]
  · rw [khOnlyOf_cons, if_pos h2]

theorem C10_doubleCount_spec_witness :
    totalOf [toItem (mkRow 1 1 1 "수학" "한국사" 4)] =
        (toItem (mkRow 1 1 1 "수학" "한국사" 4)).credit + totalOf [] ∧
      baseOnlyOf [toItem (mkRow 1 1 1 "수학" "한국사" 4)] =
        (toItem (mkRow 1 1 1 "수학" "한국사" 4)).credit + baseOnlyOf [] ∧
      khOnlyOf [toItem (mkRow 1 1 1 "수학" "한국사" 4)] =
        (toItem (mkRow 1 1 1 "수학" "한국사" 4)).credit + khOnlyOf [] :=
  C10_doubleCount_spec.1 (toItem (mkRow 1 1 1 "수학" "한국사" 4)) []
    (by decide) (by decide)

end CreditCheck
